import Mathlib

/-!
Verification of the interval AVL map in `src/Header Files/IntervalAVLMap.h`.

The C++ class `IntervalAVLMap<TKey, TValue>` is embedded shallowly: the
node-pointer structure becomes the inductive type `Tree V`, mutation by
`std::unique_ptr&` becomes functions returning the new subtree, and the
cached fields `max` and `height` are stored on each node exactly as in the
source.  The key type is `Int`: the source's `GetMax`/`CalcMax` mix `TKey`
with the literal `-1` (they are declared `int`), so the template only
instantiates at integer keys.

Where the source has undefined behaviour (the recursive branches of
`Find` and `FindMinimum` lack a `return`), the embedding uses the
propagating semantics the surrounding code relies on; each such place is
marked by a comment at the definition.
-/

namespace IntervalMap

/-- `struct Key { TKey lo, hi; }` from the source, with `TKey = Int`. -/
structure Key where
  lo : Int
  hi : Int
deriving DecidableEq, Repr

/-- `struct Node` together with the owning `unique_ptr` structure:
`nil` is the null pointer, `node key value max height left right`
carries the two cached fields `max` and `height` of the source. -/
inductive Tree (V : Type) where
  | nil : Tree V
  | node (key : Key) (value : V) (max : Int) (height : Int) (left right : Tree V) : Tree V
deriving DecidableEq, Repr

namespace Tree

variable {V : Type}

/-- Null check on the owning pointer (`node.get() == nullptr`). -/
def isNil : Tree V → Bool
  | nil => true
  | node _ _ _ _ _ _ => false

/-- `GetHeight`: `-1` for a null node, else the stored `height` field. -/
def getHeight : Tree V → Int
  | nil => -1
  | node _ _ _ h _ _ => h

/-- `GetMax`: `-1` for a null node, else the stored `max` field. -/
def getMax : Tree V → Int
  | nil => -1
  | node _ _ m _ _ _ => m

/-- `CalcHeight`: recompute a node's height from the children's *stored*
height fields (`-1` for an absent child). -/
def calcHeight : Tree V → Int
  | nil => -1
  | node _ _ _ _ l r => 1 + max (getHeight l) (getHeight r)

/-- `CalcMax`: overwrite the node's `max` field with
`std::max({key.hi, leftMax, rightMax})`, an absent child contributing `-1`.
On a null node the source returns without doing anything. -/
def calcMax : Tree V → Tree V
  | nil => nil
  | node k v _ h l r => node k v (max k.hi (max (getMax l) (getMax r))) h l r

/-- `GetBalance`: stored height of the left child minus stored height of the
right child.  The source dereferences the node unconditionally; it is only
ever called on non-null nodes, so the `nil` case (0) is unreachable. -/
def getBalance : Tree V → Int
  | nil => 0
  | node _ _ _ _ l r => getHeight l - getHeight r

/-- `RightRotation`: promote the left child, transfer its right subtree,
and refresh the `max` field of the two re-parented nodes (the demoted node
first, then the promoted one), exactly in source order.  The source
dereferences a null left child (undefined); callers only rotate nodes
whose left child exists, so the fallback returns the input unchanged. -/
def rightRotation : Tree V → Tree V
  | node k v m h (node lk lv lm lh ll lr) r =>
      calcMax (node lk lv lm lh ll (calcMax (node k v m h lr r)))
  | t => t

/-- `LeftRotation`, mirror image of `rightRotation`. -/
def leftRotation : Tree V → Tree V
  | node k v m h l (node rk rv rm rh rl rr) =>
      calcMax (node rk rv rm rh (calcMax (node k v m h l rl)) rr)
  | t => t

/-- `node->height = CalcHeight(node.get())` as a tree transform: overwrite
the node's `height` field from the children's stored heights; a null node is
left alone. -/
def setTopHeight : Tree V → Tree V
  | nil => nil
  | node k v m _ l r => node k v m (1 + max (getHeight l) (getHeight r)) l r

/-- The height-refresh block at the end of both branches of `Balance`:
`node->height = CalcHeight(node)` (using the children's *old* stored
heights), then the same refresh on the left child and on the right child
(each guarded by a null check in the source). -/
def refreshHeights : Tree V → Tree V
  | nil => nil
  | node k v m _ l r =>
      node k v m (1 + max (getHeight l) (getHeight r))
        (setTopHeight l) (setTopHeight r)

/-- `Balance`: the four AVL rotation cases selected on the balance factor of
the node and of the taller child, then the height refreshes; nothing happens
when the balance factor is within `[-1, 1]`. -/
def balance : Tree V → Tree V
  | nil => nil
  | node k v m h l r =>
      if getBalance (node k v m h l r) < -1 then
        refreshHeights (leftRotation
          (if getBalance r ≥ 1 then node k v m h l (rightRotation r)
           else node k v m h l r))
      else if getBalance (node k v m h l r) > 1 then
        refreshHeights (rightRotation
          (if getBalance l ≤ -1 then node k v m h (leftRotation l) r
           else node k v m h l r))
      else node k v m h l r

/-- The fix-up tail of the recursive `Insert`:
`Balance(node); node->height = CalcHeight(node); CalcMax(node)`. -/
def fixInsert (t : Tree V) : Tree V :=
  calcMax (setTopHeight (balance t))

/-- The recursive `Insert(Key&, TValue&, unique_ptr&)`.  A fresh key makes a
leaf (`height = 0`, `max = key.hi`); a smaller key inserts left, a larger
right, both followed by the fix-up tail; an equal `lo` overwrites only the
stored `value` and returns at once (the stored `Key`, in particular its
`hi`, and the cached fields are left untouched). -/
def insertAux (key : Key) (value : V) : Tree V → Tree V
  | nil => node key value key.hi 0 nil nil
  | node k v m h l r =>
      if key.lo < k.lo then
        fixInsert (node k v m h (insertAux key value l) r)
      else if key.lo > k.lo then
        fixInsert (node k v m h l (insertAux key value r))
      else
        node k value m h l r

/-- The public `Insert(lo, hi, value)`.  It rejects `hi < lo` by returning
`nullptr` and not touching the tree; otherwise it runs the recursive insert
on the root slot and returns `.get()` of the reference that call returns.
Every return path of the recursive insert returns its own slot argument, so
the top-level call returns the root slot: the returned pointer is modelled
as the whole post-insert tree (`none` models `nullptr`). -/
def insertOp (lo hi : Int) (value : V) (t : Tree V) : Option (Tree V) × Tree V :=
  if hi < lo then (none, t)
  else
    let t' := insertAux ⟨lo, hi⟩ value t
    (some t', t')

/-- `FindMinimum`: follow left children until none is left and return that
node.  The recursive branch of the source lacks a `return` (undefined
behaviour); the propagating semantics the caller relies on is used.  The
source dereferences a null argument; callers pass non-null nodes. -/
def findMinimum : Tree V → Tree V
  | nil => nil
  | node k v m h nil r => node k v m h nil r
  | node _ _ _ _ (node lk lv lm lh ll lr) _ => findMinimum (node lk lv lm lh ll lr)

/-- The fix-up tail of the recursive `Delete`:
`Balance(node); node->height = CalcHeight(node)` — note: no `CalcMax`. -/
def fixDelete (t : Tree V) : Tree V :=
  setTopHeight (balance t)

/-- The recursive `Delete(TKey, unique_ptr&)`.  Null: return.  Descend right
when the node's `lo` is smaller than the key, left when larger; at a match:
a node with stored `height == 0` is reset (early return, no fix-up); with a
single child the child subtree is spliced into the slot; with two children
the minimum node of the right subtree is copied (`key` and `value`) into the
node and its own `lo` is then deleted from the right subtree.  All paths but
the early returns end with the delete fix-up tail. -/
def deleteAux : Int → Tree V → Tree V
  | _, nil => nil
  | key, node k v m h l r =>
      if k.lo < key then
        fixDelete (node k v m h l (deleteAux key r))
      else if key < k.lo then
        fixDelete (node k v m h (deleteAux key l) r)
      else if h = 0 then
        nil
      else if isNil r then
        fixDelete l
      else if isNil l then
        fixDelete r
      else
        match findMinimum r with
        | nil => fixDelete (node k v m h l r)
        | node mk mv _ _ _ _ =>
            fixDelete (node mk mv m h l (deleteAux mk.lo r))

/-- The public `Delete(TKey)`: run the recursive delete on the root slot. -/
def deleteOp (key : Int) (t : Tree V) : Tree V :=
  deleteAux key t

/-- The recursive `Find(lo, hi, node)`.  A null node is returned as the
not-found answer; a node whose interval satisfies
`hi > node.key.lo && lo < node.key.hi` is returned; otherwise the search
descends right exactly when the left child is absent or its cached `max`
is `< lo`, and left otherwise.  Both recursive branches of the source lack
a `return` (undefined behaviour); the propagating semantics is used. -/
def findAux (lo hi : Int) : Tree V → Option (Key × V)
  | nil => none
  | node k v _ _ l r =>
      if hi > k.lo ∧ lo < k.hi then some (k, v)
      else if isNil l ∨ getMax l < lo then findAux lo hi r
      else findAux lo hi l

/-- The public `Find(lo, hi)`: `nullptr` on an empty tree, else the
recursive search from the root. -/
def findOp (lo hi : Int) (t : Tree V) : Option (Key × V) :=
  findAux lo hi t

/-- In-order entry list of the tree (the stored mappings). -/
def entries : Tree V → List (Key × V)
  | nil => []
  | node k v _ _ l r => entries l ++ (k, v) :: entries r

/-! ## Specification predicates -/

/-- `p` holds for the key of every node of the tree. -/
def ForallKeys (p : Key → Prop) : Tree V → Prop
  | nil => True
  | node k _ _ _ l r => p k ∧ ForallKeys p l ∧ ForallKeys p r

/-- Binary-search-tree ordering by `lo`: every key in a left subtree has a
strictly smaller `lo` than its root, every key in a right subtree a strictly
larger one, recursively. -/
def bst : Tree V → Prop
  | nil => True
  | node k _ _ _ l r =>
      ForallKeys (fun e => e.lo < k.lo) l ∧ ForallKeys (fun e => k.lo < e.lo) r ∧
        bst l ∧ bst r

/-- Every stored `height` field equals `1 + max` of the children's stored
height fields (`-1` for an absent child). -/
def heightOk : Tree V → Prop
  | nil => True
  | node _ _ _ h l r =>
      h = 1 + max (getHeight l) (getHeight r) ∧ heightOk l ∧ heightOk r

/-- AVL balance on the stored height fields:
`|height(left) - height(right)| ≤ 1` at every node. -/
def balancedS : Tree V → Prop
  | nil => True
  | node _ _ _ _ l r =>
      getHeight l - getHeight r ≤ 1 ∧ getHeight r - getHeight l ≤ 1 ∧
        balancedS l ∧ balancedS r

/-- Every stored `max` field satisfies the augmentation equation of the
source's `CalcMax`: `max = std::max({key.hi, leftMax, rightMax})` with an
absent child contributing `-1`. -/
def maxOk : Tree V → Prop
  | nil => True
  | node k _ m _ l r =>
      m = max k.hi (max (getMax l) (getMax r)) ∧ maxOk l ∧ maxOk r

/-- The structural well-formedness the mutating operations maintain. -/
def good (t : Tree V) : Prop := heightOk t ∧ balancedS t ∧ bst t

/-- The true height of the tree, recomputed from the structure. -/
def realHeight : Tree V → Int
  | nil => -1
  | node _ _ _ _ l r => 1 + max (realHeight l) (realHeight r)

/-- AVL balance stated on true heights, as in the claim. -/
def avl : Tree V → Prop
  | nil => True
  | node _ _ _ _ l r =>
      realHeight l - realHeight r ≤ 1 ∧ realHeight r - realHeight l ≤ 1 ∧
        avl l ∧ avl r

/-- Half-open interval overlap as tested by `Find`:
`hi > stored.lo && lo < stored.hi`. -/
def overlap (qlo qhi : Int) (k : Key) : Prop := qhi > k.lo ∧ qlo < k.hi

instance overlap.instDecidable (qlo qhi : Int) (k : Key) :
    Decidable (overlap qlo qhi k) :=
  inferInstanceAs (Decidable (qhi > k.lo ∧ qlo < k.hi))

def ForallKeys.dec (p : Key → Prop) [DecidablePred p] :
    (t : Tree V) → Decidable (ForallKeys p t)
  | .nil => isTrue trivial
  | .node k _ _ _ l r =>
      have := ForallKeys.dec p l
      have := ForallKeys.dec p r
      inferInstanceAs (Decidable (p k ∧ ForallKeys p l ∧ ForallKeys p r))

instance (p : Key → Prop) [DecidablePred p] (t : Tree V) :
    Decidable (ForallKeys p t) := ForallKeys.dec p t

def bst.dec : (t : Tree V) → Decidable (bst t)
  | .nil => isTrue trivial
  | .node k _ _ _ l r =>
      have := bst.dec l
      have := bst.dec r
      inferInstanceAs (Decidable (ForallKeys (fun e => e.lo < k.lo) l ∧
        ForallKeys (fun e => k.lo < e.lo) r ∧ bst l ∧ bst r))

instance (t : Tree V) : Decidable (bst t) := bst.dec t

def heightOk.dec : (t : Tree V) → Decidable (heightOk t)
  | .nil => isTrue trivial
  | .node _ _ _ h l r =>
      have := heightOk.dec l
      have := heightOk.dec r
      inferInstanceAs (Decidable (h = 1 + max (getHeight l) (getHeight r) ∧
        heightOk l ∧ heightOk r))

instance (t : Tree V) : Decidable (heightOk t) := heightOk.dec t

def balancedS.dec : (t : Tree V) → Decidable (balancedS t)
  | .nil => isTrue trivial
  | .node _ _ _ _ l r =>
      have := balancedS.dec l
      have := balancedS.dec r
      inferInstanceAs (Decidable (getHeight l - getHeight r ≤ 1 ∧
        getHeight r - getHeight l ≤ 1 ∧ balancedS l ∧ balancedS r))

instance (t : Tree V) : Decidable (balancedS t) := balancedS.dec t

def maxOk.dec : (t : Tree V) → Decidable (maxOk t)
  | .nil => isTrue trivial
  | .node k _ m _ l r =>
      have := maxOk.dec l
      have := maxOk.dec r
      inferInstanceAs (Decidable (m = max k.hi (max (getMax l) (getMax r)) ∧
        maxOk l ∧ maxOk r))

instance (t : Tree V) : Decidable (maxOk t) := maxOk.dec t

instance (t : Tree V) : Decidable (good t) :=
  inferInstanceAs (Decidable (heightOk t ∧ balancedS t ∧ bst t))

def avl.dec : (t : Tree V) → Decidable (avl t)
  | .nil => isTrue trivial
  | .node _ _ _ _ l r =>
      have := avl.dec l
      have := avl.dec r
      inferInstanceAs (Decidable (realHeight l - realHeight r ≤ 1 ∧
        realHeight r - realHeight l ≤ 1 ∧ avl l ∧ avl r))

instance (t : Tree V) : Decidable (avl t) := avl.dec t

/-! ## Computation lemmas for the getters -/

@[simp] theorem getHeight_nil : getHeight (nil : Tree V) = -1 := rfl

@[simp] theorem getHeight_node {k : Key} {v : V} {m h : Int} {l r : Tree V} :
    getHeight (node k v m h l r) = h := rfl

@[simp] theorem getMax_nil : getMax (nil : Tree V) = -1 := rfl

@[simp] theorem getMax_node {k : Key} {v : V} {m h : Int} {l r : Tree V} :
    getMax (node k v m h l r) = m := rfl

@[simp] theorem getBalance_nil : getBalance (nil : Tree V) = 0 := rfl

@[simp] theorem getBalance_node {k : Key} {v : V} {m h : Int} {l r : Tree V} :
    getBalance (node k v m h l r) = getHeight l - getHeight r := rfl

@[simp] theorem isNil_nil : isNil (nil : Tree V) = true := rfl

@[simp] theorem isNil_node {k : Key} {v : V} {m h : Int} {l r : Tree V} :
    isNil (node k v m h l r) = false := rfl

@[simp] theorem entries_nil : entries (nil : Tree V) = [] := rfl

@[simp] theorem entries_node {k : Key} {v : V} {m h : Int} {l r : Tree V} :
    entries (node k v m h l r) = entries l ++ (k, v) :: entries r := rfl

@[simp] theorem calcMax_nil : calcMax (nil : Tree V) = nil := rfl

@[simp] theorem calcMax_node {k : Key} {v : V} {m h : Int} {l r : Tree V} :
    calcMax (node k v m h l r) =
      node k v (max k.hi (max (getMax l) (getMax r))) h l r := rfl

@[simp] theorem setTopHeight_nil : setTopHeight (nil : Tree V) = nil := rfl

@[simp] theorem setTopHeight_node {k : Key} {v : V} {m h : Int} {l r : Tree V} :
    setTopHeight (node k v m h l r) =
      node k v m (1 + max (getHeight l) (getHeight r)) l r := rfl

@[simp] theorem refreshHeights_nil : refreshHeights (nil : Tree V) = nil := rfl

@[simp] theorem refreshHeights_node {k : Key} {v : V} {m h : Int} {l r : Tree V} :
    refreshHeights (node k v m h l r) =
      node k v m (1 + max (getHeight l) (getHeight r))
        (setTopHeight l) (setTopHeight r) := rfl

@[simp] theorem ForallKeys_nil {p : Key → Prop} : ForallKeys p (nil : Tree V) := trivial

@[simp] theorem ForallKeys_node {p : Key → Prop} {k : Key} {v : V} {m h : Int}
    {l r : Tree V} :
    ForallKeys p (node k v m h l r) ↔ p k ∧ ForallKeys p l ∧ ForallKeys p r :=
  Iff.rfl

@[simp] theorem bst_nil : bst (nil : Tree V) := trivial

@[simp] theorem bst_node {k : Key} {v : V} {m h : Int} {l r : Tree V} :
    bst (node k v m h l r) ↔
      ForallKeys (fun e => e.lo < k.lo) l ∧ ForallKeys (fun e => k.lo < e.lo) r ∧
        bst l ∧ bst r := Iff.rfl

@[simp] theorem heightOk_nil : heightOk (nil : Tree V) := trivial

@[simp] theorem heightOk_node {k : Key} {v : V} {m h : Int} {l r : Tree V} :
    heightOk (node k v m h l r) ↔
      h = 1 + max (getHeight l) (getHeight r) ∧ heightOk l ∧ heightOk r := Iff.rfl

@[simp] theorem balancedS_nil : balancedS (nil : Tree V) := trivial

@[simp] theorem balancedS_node {k : Key} {v : V} {m h : Int} {l r : Tree V} :
    balancedS (node k v m h l r) ↔
      getHeight l - getHeight r ≤ 1 ∧ getHeight r - getHeight l ≤ 1 ∧
        balancedS l ∧ balancedS r := Iff.rfl

@[simp] theorem maxOk_nil : maxOk (nil : Tree V) := trivial

@[simp] theorem maxOk_node {k : Key} {v : V} {m h : Int} {l r : Tree V} :
    maxOk (node k v m h l r) ↔
      m = max k.hi (max (getMax l) (getMax r)) ∧ maxOk l ∧ maxOk r := Iff.rfl

@[simp] theorem avl_nil : avl (nil : Tree V) := trivial

@[simp] theorem avl_node {k : Key} {v : V} {m h : Int} {l r : Tree V} :
    avl (node k v m h l r) ↔
      realHeight l - realHeight r ≤ 1 ∧ realHeight r - realHeight l ≤ 1 ∧
        avl l ∧ avl r := Iff.rfl

@[simp] theorem realHeight_nil : realHeight (nil : Tree V) = -1 := rfl

@[simp] theorem realHeight_node {k : Key} {v : V} {m h : Int} {l r : Tree V} :
    realHeight (node k v m h l r) = 1 + max (realHeight l) (realHeight r) := rfl

/-! ## Skeleton preservation by the field-only transforms -/

theorem entries_calcMax (t : Tree V) : entries (calcMax t) = entries t := by
  cases t <;> simp

theorem entries_setTopHeight (t : Tree V) : entries (setTopHeight t) = entries t := by
  cases t <;> simp

theorem entries_refreshHeights (t : Tree V) :
    entries (refreshHeights t) = entries t := by
  cases t <;> simp [entries_setTopHeight]

theorem ForallKeys_calcMax {p : Key → Prop} {t : Tree V} :
    ForallKeys p (calcMax t) ↔ ForallKeys p t := by
  cases t <;> simp

theorem ForallKeys_setTopHeight {p : Key → Prop} {t : Tree V} :
    ForallKeys p (setTopHeight t) ↔ ForallKeys p t := by
  cases t <;> simp

theorem ForallKeys_refreshHeights {p : Key → Prop} {t : Tree V} :
    ForallKeys p (refreshHeights t) ↔ ForallKeys p t := by
  cases t <;> simp [ForallKeys_setTopHeight]

theorem bst_calcMax {t : Tree V} : bst (calcMax t) ↔ bst t := by
  cases t <;> simp

theorem bst_setTopHeight {t : Tree V} : bst (setTopHeight t) ↔ bst t := by
  cases t <;> simp

theorem bst_refreshHeights {t : Tree V} : bst (refreshHeights t) ↔ bst t := by
  cases t <;> simp [bst_setTopHeight, ForallKeys_setTopHeight]

theorem maxOk_setTopHeight {t : Tree V} : maxOk (setTopHeight t) ↔ maxOk t := by
  cases t <;> simp

theorem getMax_calcMax_eq {t : Tree V} (hm : maxOk t) : getMax (calcMax t) = getMax t := by
  cases t with
  | nil => rfl
  | node k v m h l r => simp at hm ⊢; exact hm.1.symm

theorem getMax_setTopHeight {t : Tree V} : getMax (setTopHeight t) = getMax t := by
  cases t <;> simp

theorem getHeight_calcMax {t : Tree V} : getHeight (calcMax t) = getHeight t := by
  cases t <;> simp

theorem heightOk_calcMax {t : Tree V} : heightOk (calcMax t) ↔ heightOk t := by
  cases t <;> simp

theorem balancedS_calcMax {t : Tree V} : balancedS (calcMax t) ↔ balancedS t := by
  cases t <;> simp

theorem maxOk_calcMax_below {k : Key} {v : V} {m h : Int} {l r : Tree V}
    (hl : maxOk l) (hr : maxOk r) : maxOk (calcMax (node k v m h l r)) := by
  simp [hl, hr]

theorem ForallKeys.imp {p q : Key → Prop} (hpq : ∀ k, p k → q k) :
    ∀ {t : Tree V}, ForallKeys p t → ForallKeys q t
  | .nil, _ => trivial
  | .node k v m h l r, hp => by
      simp only [ForallKeys_node] at hp ⊢
      exact ⟨hpq _ hp.1, ForallKeys.imp hpq hp.2.1, ForallKeys.imp hpq hp.2.2⟩

/-! ## Rotations preserve the entry list and the BST order -/

theorem entries_rightRotation (t : Tree V) :
    entries (rightRotation t) = entries t := by
  match t with
  | nil => rfl
  | node k v m h nil r => rfl
  | node k v m h (node lk lv lm lh ll lr) r =>
      simp [rightRotation, List.append_assoc]

theorem entries_leftRotation (t : Tree V) :
    entries (leftRotation t) = entries t := by
  match t with
  | nil => rfl
  | node k v m h l nil => rfl
  | node k v m h l (node rk rv rm rh rl rr) =>
      simp [leftRotation, List.append_assoc]

theorem ForallKeys_rightRotation {p : Key → Prop} {t : Tree V} :
    ForallKeys p (rightRotation t) ↔ ForallKeys p t := by
  match t with
  | nil => rfl
  | node k v m h nil r => rfl
  | node k v m h (node lk lv lm lh ll lr) r =>
      simp only [rightRotation, calcMax_node, ForallKeys_node]
      tauto

theorem ForallKeys_leftRotation {p : Key → Prop} {t : Tree V} :
    ForallKeys p (leftRotation t) ↔ ForallKeys p t := by
  match t with
  | nil => rfl
  | node k v m h l nil => rfl
  | node k v m h l (node rk rv rm rh rl rr) =>
      simp only [leftRotation, calcMax_node, ForallKeys_node]
      tauto

theorem bst_rightRotation {t : Tree V} (hb : bst t) : bst (rightRotation t) := by
  match t with
  | nil => exact hb
  | node k v m h nil r => exact hb
  | node k v m h (node lk lv lm lh ll lr) r =>
      simp only [rightRotation, calcMax_node, bst_node, ForallKeys_node] at hb ⊢
      obtain ⟨⟨hlk, hll, hlr⟩, hr, ⟨hll2, hlr2, hbll, hblr⟩, hbr⟩ := hb
      refine ⟨hll2, ⟨hlk, hlr2, ForallKeys.imp (fun e he => lt_trans hlk he) hr⟩,
        hbll, hlr, hr, hblr, hbr⟩

theorem bst_leftRotation {t : Tree V} (hb : bst t) : bst (leftRotation t) := by
  match t with
  | nil => exact hb
  | node k v m h l nil => exact hb
  | node k v m h l (node rk rv rm rh rl rr) =>
      simp only [leftRotation, calcMax_node, bst_node, ForallKeys_node] at hb ⊢
      obtain ⟨hl, ⟨hrk, hrl, hrr⟩, hbl, ⟨hrl2, hrr2, hbrl, hbrr⟩⟩ := hb
      refine ⟨⟨hrk, ForallKeys.imp (fun e he => lt_trans he hrk) hl, hrl2⟩,
        hrr2, ⟨hl, hrl, hbl, hbrl⟩, hbrr⟩

/-! ## Rotations refresh the `max` augmentation -/

theorem maxOk_rightRotation {t : Tree V} (hm : maxOk t) : maxOk (rightRotation t) := by
  match t with
  | nil => exact hm
  | node k v m h nil r => exact hm
  | node k v m h (node lk lv lm lh ll lr) r =>
      simp only [rightRotation]
      simp at hm ⊢
      tauto

theorem maxOk_leftRotation {t : Tree V} (hm : maxOk t) : maxOk (leftRotation t) := by
  match t with
  | nil => exact hm
  | node k v m h l nil => exact hm
  | node k v m h l (node rk rv rm rh rl rr) =>
      simp only [leftRotation]
      simp at hm ⊢
      tauto

/-- `maxOk` of both children (nothing demanded of the node's own field). -/
def maxOkBelow : Tree V → Prop
  | nil => True
  | node _ _ _ _ l r => maxOk l ∧ maxOk r

theorem maxOkBelow_leftRotation {k : Key} {v : V} {m h : Int} {l r : Tree V}
    (hl : maxOk l) (hr : maxOk r) : maxOkBelow (leftRotation (node k v m h l r)) := by
  match r with
  | nil => exact ⟨hl, hr⟩
  | node rk rv rm rh rl rr =>
      simp only [leftRotation, maxOkBelow]
      simp at hr ⊢
      tauto

theorem maxOkBelow_rightRotation {k : Key} {v : V} {m h : Int} {l r : Tree V}
    (hl : maxOk l) (hr : maxOk r) : maxOkBelow (rightRotation (node k v m h l r)) := by
  match l with
  | nil => exact ⟨hl, hr⟩
  | node lk lv lm lh ll lr =>
      simp only [rightRotation, maxOkBelow]
      simp at hl ⊢
      tauto

theorem maxOkBelow_refreshHeights {t : Tree V} (hm : maxOkBelow t) :
    maxOkBelow (refreshHeights t) := by
  match t with
  | nil => exact hm
  | node k v m h l r =>
      exact ⟨maxOk_setTopHeight.mpr hm.1, maxOk_setTopHeight.mpr hm.2⟩

theorem maxOkBelow_setTopHeight {t : Tree V} :
    maxOkBelow (setTopHeight t) ↔ maxOkBelow t := by
  cases t <;> simp [maxOkBelow]

/-! ## Case equations for `Balance` -/

@[simp] theorem balance_nil : balance (nil : Tree V) = nil := rfl

/-- Right-heavy with a left-heavy right child: RL double rotation. -/
theorem balance_rl {k : Key} {v : V} {m h : Int} {l r : Tree V}
    (hbf : getBalance (node k v m h l r) < -1) (hs : getBalance r ≥ 1) :
    balance (node k v m h l r) =
      refreshHeights (leftRotation (node k v m h l (rightRotation r))) := by
  simp only [balance]
  rw [if_pos hbf, if_pos hs]

/-- Right-heavy otherwise: single left rotation (RR case). -/
theorem balance_rr {k : Key} {v : V} {m h : Int} {l r : Tree V}
    (hbf : getBalance (node k v m h l r) < -1) (hs : ¬ getBalance r ≥ 1) :
    balance (node k v m h l r) =
      refreshHeights (leftRotation (node k v m h l r)) := by
  simp only [balance]
  rw [if_pos hbf, if_neg hs]

/-- Left-heavy with a right-heavy left child: LR double rotation. -/
theorem balance_lr {k : Key} {v : V} {m h : Int} {l r : Tree V}
    (hbf : getBalance (node k v m h l r) > 1) (hs : getBalance l ≤ -1) :
    balance (node k v m h l r) =
      refreshHeights (rightRotation (node k v m h (leftRotation l) r)) := by
  simp only [balance]
  rw [if_neg (by omega), if_pos hbf, if_pos hs]

/-- Left-heavy otherwise: single right rotation (LL case). -/
theorem balance_ll {k : Key} {v : V} {m h : Int} {l r : Tree V}
    (hbf : getBalance (node k v m h l r) > 1) (hs : ¬ getBalance l ≤ -1) :
    balance (node k v m h l r) =
      refreshHeights (rightRotation (node k v m h l r)) := by
  simp only [balance]
  rw [if_neg (by omega), if_pos hbf, if_neg hs]

/-- Balance factor within `[-1, 1]`: no rotation, the node is untouched. -/
theorem balance_id {t : Tree V} (h1 : -1 ≤ getBalance t) (h2 : getBalance t ≤ 1) :
    balance t = t := by
  cases t with
  | nil => rfl
  | node k v m h l r =>
      simp only [balance]
      rw [if_neg (by omega), if_neg (by omega)]

/-! ## `Balance` preserves the entry list, the BST order, and the `max`
equations of the children -/

theorem entries_balance (t : Tree V) : entries (balance t) = entries t := by
  cases t with
  | nil => rfl
  | node k v m h l r =>
      by_cases h1 : getBalance (node k v m h l r) < -1
      · by_cases h2 : getBalance r ≥ 1
        · rw [balance_rl h1 h2]
          simp [entries_refreshHeights, entries_leftRotation, entries_rightRotation]
        · rw [balance_rr h1 h2]
          simp [entries_refreshHeights, entries_leftRotation]
      · by_cases h3 : getBalance (node k v m h l r) > 1
        · by_cases h4 : getBalance l ≤ -1
          · rw [balance_lr h3 h4]
            simp [entries_refreshHeights, entries_rightRotation, entries_leftRotation]
          · rw [balance_ll h3 h4]
            simp [entries_refreshHeights, entries_rightRotation]
        · rw [balance_id (by omega) (by omega)]

theorem ForallKeys_balance {p : Key → Prop} {t : Tree V} :
    ForallKeys p (balance t) ↔ ForallKeys p t := by
  cases t with
  | nil => exact Iff.rfl
  | node k v m h l r =>
      by_cases h1 : getBalance (node k v m h l r) < -1
      · by_cases h2 : getBalance r ≥ 1
        · rw [balance_rl h1 h2]
          simp [ForallKeys_refreshHeights, ForallKeys_leftRotation,
            ForallKeys_rightRotation]
        · rw [balance_rr h1 h2]
          simp [ForallKeys_refreshHeights, ForallKeys_leftRotation]
      · by_cases h3 : getBalance (node k v m h l r) > 1
        · by_cases h4 : getBalance l ≤ -1
          · rw [balance_lr h3 h4]
            simp [ForallKeys_refreshHeights, ForallKeys_rightRotation,
              ForallKeys_leftRotation]
          · rw [balance_ll h3 h4]
            simp [ForallKeys_refreshHeights, ForallKeys_rightRotation]
        · rw [balance_id (by omega) (by omega)]

theorem bst_balance {t : Tree V} (hb : bst t) : bst (balance t) := by
  cases t with
  | nil => exact hb
  | node k v m h l r =>
      simp only [bst_node] at hb
      obtain ⟨hl, hr, hbl, hbr⟩ := hb
      by_cases h1 : getBalance (node k v m h l r) < -1
      · by_cases h2 : getBalance r ≥ 1
        · rw [balance_rl h1 h2]
          exact bst_refreshHeights.mpr (bst_leftRotation
            (bst_node.mpr ⟨hl, ForallKeys_rightRotation.mpr hr, hbl,
              bst_rightRotation hbr⟩))
        · rw [balance_rr h1 h2]
          exact bst_refreshHeights.mpr (bst_leftRotation
            (bst_node.mpr ⟨hl, hr, hbl, hbr⟩))
      · by_cases h3 : getBalance (node k v m h l r) > 1
        · by_cases h4 : getBalance l ≤ -1
          · rw [balance_lr h3 h4]
            exact bst_refreshHeights.mpr (bst_rightRotation
              (bst_node.mpr ⟨ForallKeys_leftRotation.mpr hl, hr,
                bst_leftRotation hbl, hbr⟩))
          · rw [balance_ll h3 h4]
            exact bst_refreshHeights.mpr (bst_rightRotation
              (bst_node.mpr ⟨hl, hr, hbl, hbr⟩))
        · rw [balance_id (by omega) (by omega)]
          exact bst_node.mpr ⟨hl, hr, hbl, hbr⟩

theorem maxOkBelow_balance {t : Tree V} (hm : maxOkBelow t) :
    maxOkBelow (balance t) := by
  cases t with
  | nil => exact hm
  | node k v m h l r =>
      obtain ⟨hl, hr⟩ := hm
      by_cases h1 : getBalance (node k v m h l r) < -1
      · by_cases h2 : getBalance r ≥ 1
        · rw [balance_rl h1 h2]
          exact maxOkBelow_refreshHeights
            (maxOkBelow_leftRotation hl (maxOk_rightRotation hr))
        · rw [balance_rr h1 h2]
          exact maxOkBelow_refreshHeights (maxOkBelow_leftRotation hl hr)
      · by_cases h3 : getBalance (node k v m h l r) > 1
        · by_cases h4 : getBalance l ≤ -1
          · rw [balance_lr h3 h4]
            exact maxOkBelow_refreshHeights
              (maxOkBelow_rightRotation (maxOk_leftRotation hl) hr)
          · rw [balance_ll h3 h4]
            exact maxOkBelow_refreshHeights (maxOkBelow_rightRotation hl hr)
        · rw [balance_id (by omega) (by omega)]
          exact ⟨hl, hr⟩

/-! ## The insert and delete fix-up tails -/

theorem entries_fixInsert (t : Tree V) : entries (fixInsert t) = entries t := by
  simp [fixInsert, entries_calcMax, entries_setTopHeight, entries_balance]

theorem entries_fixDelete (t : Tree V) : entries (fixDelete t) = entries t := by
  simp [fixDelete, entries_setTopHeight, entries_balance]

theorem ForallKeys_fixInsert {p : Key → Prop} {t : Tree V} :
    ForallKeys p (fixInsert t) ↔ ForallKeys p t := by
  simp [fixInsert, ForallKeys_calcMax, ForallKeys_setTopHeight, ForallKeys_balance]

theorem ForallKeys_fixDelete {p : Key → Prop} {t : Tree V} :
    ForallKeys p (fixDelete t) ↔ ForallKeys p t := by
  simp [fixDelete, ForallKeys_setTopHeight, ForallKeys_balance]

theorem bst_fixInsert {t : Tree V} (hb : bst t) : bst (fixInsert t) := by
  simpa [fixInsert, bst_calcMax, bst_setTopHeight] using bst_balance hb

theorem bst_fixDelete {t : Tree V} (hb : bst t) : bst (fixDelete t) := by
  simpa [fixDelete, bst_setTopHeight] using bst_balance hb

theorem maxOk_fixInsert {t : Tree V} (hm : maxOkBelow t) : maxOk (fixInsert t) := by
  have h1 : maxOkBelow (setTopHeight (balance t)) :=
    maxOkBelow_setTopHeight.mpr (maxOkBelow_balance hm)
  unfold fixInsert
  match hs : setTopHeight (balance t) with
  | nil => exact trivial
  | node k v m h l r =>
      rw [hs] at h1
      exact maxOk_calcMax_below h1.1 h1.2

/-! ## The rebalancing lemma -/

theorem getHeight_ge_neg_one {t : Tree V} (ho : heightOk t) : -1 ≤ getHeight t := by
  induction t with
  | nil => simp
  | node k v m h l r ihl ihr =>
      simp only [heightOk_node] at ho
      have h1 := ihl ho.2.1
      have h2 := ihr ho.2.2
      simp only [getHeight_node]
      omega

theorem setTopHeight_id {t : Tree V} (ho : heightOk t) : setTopHeight t = t := by
  cases t with
  | nil => rfl
  | node k v m h l r =>
      simp only [heightOk_node] at ho
      rw [setTopHeight_node, ho.1]

/-- The central rebalancing fact: on a node whose children satisfy the
height and balance invariants and whose own balance factor is within
`[-2, 2]`, `Balance` followed by the caller's height recomputation restores
both invariants, and the resulting height is `1 + max` of the children's
heights, dropping to exactly `max` only in a rotation case. -/
theorem rebalance_good {k : Key} {v : V} {m h : Int} {l r : Tree V}
    (hOkl : heightOk l) (hOkr : heightOk r)
    (hbl : balancedS l) (hbr : balancedS r)
    (hlow : -2 ≤ getHeight l - getHeight r)
    (hhigh : getHeight l - getHeight r ≤ 2) :
    heightOk (fixDelete (node k v m h l r)) ∧
    balancedS (fixDelete (node k v m h l r)) ∧
    (getHeight (fixDelete (node k v m h l r)) = 1 + max (getHeight l) (getHeight r) ∨
      ((getHeight l - getHeight r = 2 ∨ getHeight l - getHeight r = -2) ∧
        getHeight (fixDelete (node k v m h l r)) = max (getHeight l) (getHeight r))) := by
  by_cases h1 : getBalance (node k v m h l r) < -1
  · -- right-heavy: balance factor is exactly -2
    have hb2 : getHeight l - getHeight r = -2 := by
      simp only [getBalance_node] at h1; omega
    have hgl : -1 ≤ getHeight l := getHeight_ge_neg_one hOkl
    cases r with
    | nil => simp only [getHeight_nil] at hb2; omega
    | node rk rv rm rh rl rr =>
        simp only [heightOk_node] at hOkr
        obtain ⟨hrh, hOkrl, hOkrr⟩ := hOkr
        simp only [balancedS_node] at hbr
        obtain ⟨hbr1, hbr2, hbrl, hbrr⟩ := hbr
        have hgrl : -1 ≤ getHeight rl := getHeight_ge_neg_one hOkrl
        have hgrr : -1 ≤ getHeight rr := getHeight_ge_neg_one hOkrr
        simp only [getHeight_node] at hb2
        by_cases hs : getBalance (node rk rv rm rh rl rr) ≥ 1
        · -- RL double rotation; the right child is left-heavy so `rl` exists
          simp only [getBalance_node] at hs
          cases rl with
          | nil => simp only [getHeight_nil] at hs; omega
          | node ck cv cm ch cl cr =>
              simp only [heightOk_node] at hOkrl
              obtain ⟨hch, hOkcl, hOkcr⟩ := hOkrl
              simp only [balancedS_node] at hbrl
              obtain ⟨hbc1, hbc2, hbcl, hbcr⟩ := hbrl
              have hgcl : -1 ≤ getHeight cl := getHeight_ge_neg_one hOkcl
              have hgcr : -1 ≤ getHeight cr := getHeight_ge_neg_one hOkcr
              unfold fixDelete
              rw [balance_rl h1 hs]
              simp only [rightRotation, leftRotation, calcMax_node,
                refreshHeights_node, setTopHeight_node]
              simp only [getHeight_node] at hs hrh hbr1 hbr2 hb2
              simp only [heightOk_node, balancedS_node, getHeight_node,
                getHeight_nil]
              refine ⟨?_, ?_, ?_⟩
              · repeat' apply And.intro
                all_goals first | trivial | assumption | omega
              · repeat' apply And.intro
                all_goals first | trivial | assumption | omega
              · omega
        · -- RR single left rotation
          simp only [getBalance_node] at hs
          unfold fixDelete
          rw [balance_rr h1 hs]
          simp only [leftRotation, calcMax_node, refreshHeights_node,
            setTopHeight_node, setTopHeight_id hOkrr]
          simp only [heightOk_node, balancedS_node, getHeight_node]
          refine ⟨?_, ?_, ?_⟩
          · repeat' apply And.intro
            all_goals first | trivial | assumption | omega
          · repeat' apply And.intro
            all_goals first | trivial | assumption | omega
          · omega
  · by_cases h2 : getBalance (node k v m h l r) > 1
    · -- left-heavy: balance factor is exactly 2
      have hb2 : getHeight l - getHeight r = 2 := by
        simp only [getBalance_node] at h2; omega
      have hgr : -1 ≤ getHeight r := getHeight_ge_neg_one hOkr
      cases l with
      | nil => simp only [getHeight_nil] at hb2; omega
      | node lk lv lm lh ll lr =>
          simp only [heightOk_node] at hOkl
          obtain ⟨hlh, hOkll, hOklr⟩ := hOkl
          simp only [balancedS_node] at hbl
          obtain ⟨hbl1, hbl2, hbll, hblr⟩ := hbl
          have hgll : -1 ≤ getHeight ll := getHeight_ge_neg_one hOkll
          have hglr : -1 ≤ getHeight lr := getHeight_ge_neg_one hOklr
          simp only [getHeight_node] at hb2
          by_cases hs : getBalance (node lk lv lm lh ll lr) ≤ -1
          · -- LR double rotation; the left child is right-heavy so `lr` exists
            simp only [getBalance_node] at hs
            cases lr with
            | nil => simp only [getHeight_nil] at hs; omega
            | node ck cv cm ch cl cr =>
                simp only [heightOk_node] at hOklr
                obtain ⟨hch, hOkcl, hOkcr⟩ := hOklr
                simp only [balancedS_node] at hblr
                obtain ⟨hbc1, hbc2, hbcl, hbcr⟩ := hblr
                have hgcl : -1 ≤ getHeight cl := getHeight_ge_neg_one hOkcl
                have hgcr : -1 ≤ getHeight cr := getHeight_ge_neg_one hOkcr
                unfold fixDelete
                rw [balance_lr h2 hs]
                simp only [leftRotation, rightRotation, calcMax_node,
                  refreshHeights_node, setTopHeight_node]
                simp only [getHeight_node] at hs hlh hbl1 hbl2 hb2
                simp only [heightOk_node, balancedS_node, getHeight_node,
                  getHeight_nil]
                refine ⟨?_, ?_, ?_⟩
                · repeat' apply And.intro
                  all_goals first | trivial | assumption | omega
                · repeat' apply And.intro
                  all_goals first | trivial | assumption | omega
                · omega
          · -- LL single right rotation
            simp only [getBalance_node] at hs
            unfold fixDelete
            rw [balance_ll h2 hs]
            simp only [rightRotation, calcMax_node, refreshHeights_node,
              setTopHeight_node, setTopHeight_id hOkll]
            simp only [heightOk_node, balancedS_node, getHeight_node]
            refine ⟨?_, ?_, ?_⟩
            · repeat' apply And.intro
              all_goals first | trivial | assumption | omega
            · repeat' apply And.intro
              all_goals first | trivial | assumption | omega
            · omega
    · -- already balanced: only the height field is recomputed
      unfold fixDelete
      rw [balance_id (by simp only [getBalance_node] at h1 ⊢; omega)
        (by simp only [getBalance_node] at h2 ⊢; omega)]
      simp only [getBalance_node] at h1 h2
      simp only [setTopHeight_node, heightOk_node, balancedS_node, getHeight_node]
      refine ⟨?_, ?_, ?_⟩
      · repeat' apply And.intro
        all_goals first | trivial | assumption | omega
      · repeat' apply And.intro
        all_goals first | trivial | assumption | omega
      · exact Or.inl trivial

/-- `fixDelete` on a node with well-formed children and balance factor in
`[-2, 2]` produces a good tree, adding the BST order to `rebalance_good`. -/
theorem fixDelete_spec {k : Key} {v : V} {m h : Int} {l r : Tree V}
    (hOkl : heightOk l) (hOkr : heightOk r)
    (hbl : balancedS l) (hbr : balancedS r)
    (hfl : ForallKeys (fun e => e.lo < k.lo) l)
    (hfr : ForallKeys (fun e => k.lo < e.lo) r)
    (hbstl : bst l) (hbstr : bst r)
    (hlow : -2 ≤ getHeight l - getHeight r)
    (hhigh : getHeight l - getHeight r ≤ 2) :
    good (fixDelete (node k v m h l r)) ∧
    (getHeight (fixDelete (node k v m h l r)) = 1 + max (getHeight l) (getHeight r) ∨
      ((getHeight l - getHeight r = 2 ∨ getHeight l - getHeight r = -2) ∧
        getHeight (fixDelete (node k v m h l r)) = max (getHeight l) (getHeight r))) := by
  obtain ⟨ha, hb, hc⟩ := rebalance_good (k := k) (v := v) (m := m) (h := h)
    hOkl hOkr hbl hbr hlow hhigh
  exact ⟨⟨ha, hb, bst_fixDelete (bst_node.mpr ⟨hfl, hfr, hbstl, hbstr⟩)⟩, hc⟩

theorem fixInsert_eq_calcMax_fixDelete (t : Tree V) :
    fixInsert t = calcMax (fixDelete t) := rfl

/-- The same facts for the insert fix-up tail (which additionally runs
`CalcMax` on the node, leaving heights and order untouched). -/
theorem fixInsert_spec {k : Key} {v : V} {m h : Int} {l r : Tree V}
    (hOkl : heightOk l) (hOkr : heightOk r)
    (hbl : balancedS l) (hbr : balancedS r)
    (hfl : ForallKeys (fun e => e.lo < k.lo) l)
    (hfr : ForallKeys (fun e => k.lo < e.lo) r)
    (hbstl : bst l) (hbstr : bst r)
    (hlow : -2 ≤ getHeight l - getHeight r)
    (hhigh : getHeight l - getHeight r ≤ 2) :
    good (fixInsert (node k v m h l r)) ∧
    (getHeight (fixInsert (node k v m h l r)) = 1 + max (getHeight l) (getHeight r) ∨
      ((getHeight l - getHeight r = 2 ∨ getHeight l - getHeight r = -2) ∧
        getHeight (fixInsert (node k v m h l r)) = max (getHeight l) (getHeight r))) := by
  obtain ⟨⟨ha, hb, hc⟩, hd⟩ := fixDelete_spec (k := k) (v := v) (m := m) (h := h)
    hOkl hOkr hbl hbr hfl hfr hbstl hbstr hlow hhigh
  rw [fixInsert_eq_calcMax_fixDelete]
  exact ⟨⟨heightOk_calcMax.mpr ha, balancedS_calcMax.mpr hb, bst_calcMax.mpr hc⟩,
    by rw [getHeight_calcMax]; exact hd⟩

/-! ## Insert preserves the invariants -/

theorem ForallKeys_insertAux {p : Key → Prop} {key : Key} {value : V}
    (hp : p key) : ∀ {t : Tree V}, ForallKeys p t →
    ForallKeys p (insertAux key value t)
  | .nil, _ => ⟨hp, trivial, trivial⟩
  | .node k v m h l r, hf => by
      simp only [ForallKeys_node] at hf
      simp only [insertAux]
      split_ifs
      · exact ForallKeys_fixInsert.mpr
          ⟨hf.1, ForallKeys_insertAux hp hf.2.1, hf.2.2⟩
      · exact ForallKeys_fixInsert.mpr
          ⟨hf.1, hf.2.1, ForallKeys_insertAux hp hf.2.2⟩
      · exact ⟨hf.1, hf.2⟩

/-- Recursive insert preserves the height, balance and order invariants and
changes the tree's height by at most one (never decreasing it). -/
theorem insertAux_good {key : Key} {value : V} :
    ∀ {t : Tree V}, good t →
      good (insertAux key value t) ∧
      (getHeight (insertAux key value t) = getHeight t ∨
        getHeight (insertAux key value t) = getHeight t + 1)
  | .nil, _ => by
      refine ⟨⟨?_, ?_, ?_⟩, ?_⟩ <;> simp [insertAux]
  | .node k v m h l r, hg => by
      obtain ⟨hOk, hbal, hbst⟩ := hg
      simp only [heightOk_node] at hOk
      obtain ⟨hh, hOkl, hOkr⟩ := hOk
      simp only [balancedS_node] at hbal
      obtain ⟨hb1, hb2, hbl, hbr⟩ := hbal
      simp only [bst_node] at hbst
      obtain ⟨hfl, hfr, hbstl, hbstr⟩ := hbst
      simp only [insertAux]
      split_ifs with h1 h2
      · -- insert into the left subtree
        obtain ⟨⟨hOkl2, hbl2, hbstl2⟩, hht⟩ :=
          @insertAux_good key value l ⟨hOkl, hbl, hbstl⟩
        obtain ⟨hgood, hchar⟩ := fixInsert_spec (k := k) (v := v) (m := m) (h := h)
          hOkl2 hOkr hbl2 hbr (ForallKeys_insertAux h1 hfl) hfr hbstl2 hbstr
          (by omega) (by omega)
        refine ⟨hgood, ?_⟩
        simp only [getHeight_node]
        omega
      · -- insert into the right subtree
        obtain ⟨⟨hOkr2, hbr2, hbstr2⟩, hht⟩ :=
          @insertAux_good key value r ⟨hOkr, hbr, hbstr⟩
        obtain ⟨hgood, hchar⟩ := fixInsert_spec (k := k) (v := v) (m := m) (h := h)
          hOkl hOkr2 hbl hbr2 hfl (ForallKeys_insertAux h2 hfr) hbstl hbstr2
          (by omega) (by omega)
        refine ⟨hgood, ?_⟩
        simp only [getHeight_node]
        omega
      · -- duplicate `lo`: only the value changes
        exact ⟨⟨⟨hh, hOkl, hOkr⟩, ⟨hb1, hb2, hbl, hbr⟩,
          ⟨hfl, hfr, hbstl, hbstr⟩⟩, Or.inl rfl⟩

/-! ## Delete: supporting lemmas -/

theorem ForallKeys_iff_entries {p : Key → Prop} :
    ∀ {t : Tree V}, ForallKeys p t ↔ ∀ e ∈ entries t, p e.1
  | .nil => by simp
  | .node k v m h l r => by
      simp only [ForallKeys_node, entries_node, List.mem_append, List.mem_cons]
      rw [ForallKeys_iff_entries (t := l), ForallKeys_iff_entries (t := r)]
      constructor
      · rintro ⟨h1, h2, h3⟩ e (he | he | he)
        · exact h2 e he
        · subst he; exact h1
        · exact h3 e he
      · intro hall
        exact ⟨hall (k, v) (Or.inr (Or.inl rfl)),
          fun e he => hall e (Or.inl he),
          fun e he => hall e (Or.inr (Or.inr he))⟩

theorem nil_of_getHeight_neg : ∀ {t : Tree V}, heightOk t → getHeight t < 0 → t = nil
  | .nil, _, _ => rfl
  | .node k v m h l r, ho, hlt => by
      simp only [heightOk_node] at ho
      have h1 := getHeight_ge_neg_one ho.2.1
      have h2 := getHeight_ge_neg_one ho.2.2
      simp only [getHeight_node] at hlt
      omega

/-- On an already-good tree the delete fix-up tail does nothing. -/
theorem fixDelete_id {t : Tree V} (hg : good t) : fixDelete t = t := by
  obtain ⟨ho, hb, _⟩ := hg
  have hbal : balance t = t := by
    cases t with
    | nil => rfl
    | node k v m h l r =>
        simp only [balancedS_node] at hb
        exact balance_id (by simp only [getBalance_node]; omega)
          (by simp only [getBalance_node]; omega)
  unfold fixDelete
  rw [hbal, setTopHeight_id ho]

theorem bst_entries_inj :
    ∀ {t : Tree V}, bst t → ∀ e1 ∈ entries t, ∀ e2 ∈ entries t,
      e1.1.lo = e2.1.lo → e1 = e2
  | .nil, _, e1, he1, _, _, _ => by simp at he1
  | .node k v m h l r, hb, e1, he1, e2, he2, heq => by
      simp only [bst_node] at hb
      obtain ⟨hfl, hfr, hbl, hbr⟩ := hb
      simp only [entries_node, List.mem_append, List.mem_cons] at he1 he2
      have hlt1 := fun e he => (ForallKeys_iff_entries.mp hfl) e he
      have hgt1 := fun e he => (ForallKeys_iff_entries.mp hfr) e he
      rcases he1 with he1 | he1 | he1 <;> rcases he2 with he2 | he2 | he2
      · exact bst_entries_inj hbl e1 he1 e2 he2 heq
      · exact absurd heq
          (by have := hlt1 e1 he1; subst he2; simp only [Prod.fst]; omega)
      · exact absurd heq (by have := hlt1 e1 he1; have := hgt1 e2 he2; omega)
      · exact absurd heq
          (by have := hlt1 e2 he2; subst he1; simp only [Prod.fst]; omega)
      · rw [he1, he2]
      · exact absurd heq
          (by have := hgt1 e2 he2; subst he1; simp only [Prod.fst]; omega)
      · exact absurd heq (by have := hgt1 e1 he1; have := hlt1 e2 he2; omega)
      · exact absurd heq
          (by have := hgt1 e1 he1; subst he2; simp only [Prod.fst]; omega)
      · exact bst_entries_inj hbr e1 he1 e2 he2 heq

/-- `FindMinimum` on a non-null subtree returns its leftmost node: a stored
entry whose `lo` is a lower bound for every key of the subtree, and whose
own left child is null. -/
theorem findMinimum_node :
    ∀ {l : Tree V} (k : Key) (v : V) (m h : Int) (r : Tree V),
      bst (node k v m h l r) →
      ∃ mk mv mm mh2 mr, findMinimum (node k v m h l r) = node mk mv mm mh2 nil mr ∧
        (mk, mv) ∈ entries (node k v m h l r) ∧
        ForallKeys (fun e => mk.lo ≤ e.lo) (node k v m h l r)
  | .nil, k, v, m, h, r, hb => by
      refine ⟨k, v, m, h, r, rfl, by simp, ?_⟩
      simp only [bst_node] at hb
      exact ⟨le_refl _, trivial,
        ForallKeys.imp (fun e he => le_of_lt he) hb.2.1⟩
  | .node lk lv lm lh ll lr, k, v, m, h, r, hb => by
      simp only [bst_node] at hb
      obtain ⟨hfl, hfr, hbl, hbr⟩ := hb
      obtain ⟨mk, mv, mm, mh2, mr, heq, hmem, hfa⟩ :=
        findMinimum_node (l := ll) lk lv lm lh lr hbl
      have hmk_lt : mk.lo < k.lo :=
        (ForallKeys_iff_entries.mp hfl) (mk, mv) hmem
      refine ⟨mk, mv, mm, mh2, mr, ?_, ?_, ?_⟩
      · show findMinimum (node lk lv lm lh ll lr) = _
        exact heq
      · simp only [entries_node, List.mem_append, List.mem_cons]
        simp only [entries_node, List.mem_append, List.mem_cons] at hmem
        tauto
      · exact ⟨le_of_lt hmk_lt, hfa,
          ForallKeys.imp (fun e he => by omega) hfr⟩


/-- What one call of the recursive delete guarantees: the result is good,
its height dropped by at most one, every surviving entry was stored and is
not keyed `key`, and every stored entry not keyed `key` survives. -/
def DeleteSpec (key : Int) (t d : Tree V) : Prop :=
  good d ∧
  (getHeight d = getHeight t ∨ getHeight d = getHeight t - 1) ∧
  (∀ e ∈ entries d, e ∈ entries t ∧ e.1.lo ≠ key) ∧
  (∀ e ∈ entries t, e.1.lo ≠ key → e ∈ entries d)

theorem eq_nil_of_isNil : ∀ {t : Tree V}, isNil t = true → t = nil
  | .nil, _ => rfl
  | .node _ _ _ _ _ _, hx => by simp at hx

/-- The two-child case of delete: the successor's key and value are copied
into the node and the successor's `lo` is deleted from the right subtree;
given the guarantee of that recursive call, the combined step satisfies the
delete guarantee for the original node. -/
theorem delete_twoChild {key : Int} {k mk : Key} {v mv : V} {m h : Int}
    {l r : Tree V}
    (hOkl : heightOk l) (hbl : balancedS l) (hbstl : bst l)
    (hOkr : heightOk r) (hbr : balancedS r) (hbstr : bst r)
    (hfl : ForallKeys (fun e => e.lo < k.lo) l)
    (hfr : ForallKeys (fun e => k.lo < e.lo) r)
    (hh : h = 1 + max (getHeight l) (getHeight r))
    (hb1 : getHeight l - getHeight r ≤ 1)
    (hb2 : getHeight r - getHeight l ≤ 1)
    (hkey : k.lo = key)
    (hmem : (mk, mv) ∈ entries r)
    (hfa : ForallKeys (fun e => mk.lo ≤ e.lo) r)
    (hrec : DeleteSpec mk.lo r (deleteAux mk.lo r)) :
    DeleteSpec key (node k v m h l r)
      (fixDelete (node mk mv m h l (deleteAux mk.lo r))) := by
  obtain ⟨⟨hOkr2, hbr2, hbstr2⟩, hhtr, hd1, hd2⟩ := hrec
  have hklt : k.lo < mk.lo := (ForallKeys_iff_entries.mp hfr) (mk, mv) hmem
  have hfl2 : ForallKeys (fun e => e.lo < mk.lo) l :=
    ForallKeys.imp (fun e he => by omega) hfl
  have hfr2 : ForallKeys (fun e => mk.lo < e.lo) (deleteAux mk.lo r) :=
    ForallKeys_iff_entries.mpr fun e he => by
      obtain ⟨hin, hne⟩ := hd1 e he
      have := (ForallKeys_iff_entries.mp hfa) e hin
      omega
  obtain ⟨hgood, hchar⟩ := fixDelete_spec (k := mk) (v := mv) (m := m) (h := h)
    hOkl hOkr2 hbl hbr2 hfl2 hfr2 hbstl hbstr2 (by omega) (by omega)
  refine ⟨hgood, ?_, ?_, ?_⟩
  · simp only [getHeight_node]
    omega
  · intro e he
    rw [entries_fixDelete] at he
    simp only [entries_node, List.mem_append, List.mem_cons] at he ⊢
    rcases he with he | he | he
    · have := (ForallKeys_iff_entries.mp hfl) e he
      exact ⟨Or.inl he, by omega⟩
    · subst he
      simp only [Prod.fst]
      exact ⟨Or.inr (Or.inr hmem), by omega⟩
    · obtain ⟨hin, hne⟩ := hd1 e he
      have := (ForallKeys_iff_entries.mp hfr) e hin
      exact ⟨Or.inr (Or.inr hin), by omega⟩
  · intro e he hne
    rw [entries_fixDelete]
    simp only [entries_node, List.mem_append, List.mem_cons] at he ⊢
    rcases he with he | he | he
    · exact Or.inl he
    · exact absurd (by rw [he]; simp only [Prod.fst]; omega : e.1.lo = key) hne
    · by_cases hml : e.1.lo = mk.lo
      · have : e = (mk, mv) := bst_entries_inj hbstr e he (mk, mv) hmem hml
        exact Or.inr (Or.inl this)
      · exact Or.inr (Or.inr (hd2 e he hml))

/-- Recursive delete satisfies its guarantee on every good tree. -/
theorem deleteAux_spec :
    ∀ (key : Int) {t : Tree V}, good t → DeleteSpec key t (deleteAux key t)
  | key, .nil, _ => by
      refine ⟨⟨trivial, trivial, trivial⟩, Or.inl rfl, ?_, ?_⟩ <;> simp [deleteAux]
  | key, .node k v m h l r, hg => by
      obtain ⟨hOk, hbal, hbst⟩ := hg
      simp only [heightOk_node] at hOk
      obtain ⟨hh, hOkl, hOkr⟩ := hOk
      simp only [balancedS_node] at hbal
      obtain ⟨hb1, hb2, hbl, hbr⟩ := hbal
      simp only [bst_node] at hbst
      obtain ⟨hfl, hfr, hbstl, hbstr⟩ := hbst
      have hgl := getHeight_ge_neg_one hOkl
      have hgr := getHeight_ge_neg_one hOkr
      simp only [deleteAux]
      split_ifs with hc1 hc2 hc3 hc4 hc5
      · -- the key is larger: delete in the right subtree
        obtain ⟨⟨hOkr2, hbr2, hbstr2⟩, hhtr, hd1, hd2⟩ :=
          deleteAux_spec key (t := r) ⟨hOkr, hbr, hbstr⟩
        have hfr2 : ForallKeys (fun e => k.lo < e.lo) (deleteAux key r) :=
          ForallKeys_iff_entries.mpr fun e he =>
            (ForallKeys_iff_entries.mp hfr) e (hd1 e he).1
        obtain ⟨hgood, hchar⟩ := fixDelete_spec (k := k) (v := v) (m := m) (h := h)
          hOkl hOkr2 hbl hbr2 hfl hfr2 hbstl hbstr2 (by omega) (by omega)
        refine ⟨hgood, ?_, ?_, ?_⟩
        · simp only [getHeight_node]
          omega
        · intro e he
          rw [entries_fixDelete] at he
          simp only [entries_node, List.mem_append, List.mem_cons] at he ⊢
          rcases he with he | he | he
          · have := (ForallKeys_iff_entries.mp hfl) e he
            exact ⟨Or.inl he, by omega⟩
          · subst he
            simp only [Prod.fst]
            exact ⟨by tauto, by omega⟩
          · obtain ⟨hin, hne⟩ := hd1 e he
            exact ⟨Or.inr (Or.inr hin), hne⟩
        · intro e he hne
          rw [entries_fixDelete]
          simp only [entries_node, List.mem_append, List.mem_cons] at he ⊢
          rcases he with he | he | he
          · exact Or.inl he
          · exact Or.inr (Or.inl he)
          · exact Or.inr (Or.inr (hd2 e he hne))
      · -- the key is smaller: delete in the left subtree
        obtain ⟨⟨hOkl2, hbl2, hbstl2⟩, hhtl, hd1, hd2⟩ :=
          deleteAux_spec key (t := l) ⟨hOkl, hbl, hbstl⟩
        have hfl2 : ForallKeys (fun e => e.lo < k.lo) (deleteAux key l) :=
          ForallKeys_iff_entries.mpr fun e he =>
            (ForallKeys_iff_entries.mp hfl) e (hd1 e he).1
        obtain ⟨hgood, hchar⟩ := fixDelete_spec (k := k) (v := v) (m := m) (h := h)
          hOkl2 hOkr hbl2 hbr hfl2 hfr hbstl2 hbstr (by omega) (by omega)
        refine ⟨hgood, ?_, ?_, ?_⟩
        · simp only [getHeight_node]
          omega
        · intro e he
          rw [entries_fixDelete] at he
          simp only [entries_node, List.mem_append, List.mem_cons] at he ⊢
          rcases he with he | he | he
          · obtain ⟨hin, hne⟩ := hd1 e he
            exact ⟨Or.inl hin, hne⟩
          · subst he
            simp only [Prod.fst]
            exact ⟨by tauto, by omega⟩
          · have := (ForallKeys_iff_entries.mp hfr) e he
            exact ⟨Or.inr (Or.inr he), by omega⟩
        · intro e he hne
          rw [entries_fixDelete]
          simp only [entries_node, List.mem_append, List.mem_cons] at he ⊢
          rcases he with he | he | he
          · exact Or.inl (hd2 e he hne)
          · exact Or.inr (Or.inl he)
          · exact Or.inr (Or.inr he)
      · -- a match with stored height 0: the node is reset
        have hkey : k.lo = key := by omega
        have hlnil : l = nil := nil_of_getHeight_neg hOkl (by omega)
        have hrnil : r = nil := nil_of_getHeight_neg hOkr (by omega)
        subst hlnil
        subst hrnil
        refine ⟨⟨trivial, trivial, trivial⟩, ?_, by simp, ?_⟩
        · simp only [getHeight_nil, getHeight_node]
          omega
        · intro e he hne
          simp only [entries_node, entries_nil, List.nil_append,
            List.mem_singleton] at he
          subst he
          exact absurd (by simp only [Prod.fst]; omega : (k, v).1.lo = key) hne
      · -- a match, no right child: splice in the left subtree
        have hkey : k.lo = key := by omega
        have hrnil : r = nil := eq_nil_of_isNil hc4
        subst hrnil
        rw [fixDelete_id ⟨hOkl, hbl, hbstl⟩]
        simp only [getHeight_nil] at hh hb1 hb2
        refine ⟨⟨hOkl, hbl, hbstl⟩, ?_, ?_, ?_⟩
        · simp only [getHeight_node]
          omega
        · intro e he
          have := (ForallKeys_iff_entries.mp hfl) e he
          simp only [entries_node, List.mem_append, List.mem_cons]
          exact ⟨Or.inl he, by omega⟩
        · intro e he hne
          simp only [entries_node, entries_nil, List.mem_append,
            List.mem_cons, List.not_mem_nil, or_false] at he
          rcases he with he | he
          · exact he
          · exact absurd (by rw [he]; simp only [Prod.fst]; omega : e.1.lo = key) hne
      · -- a match, no left child: splice in the right subtree
        have hkey : k.lo = key := by omega
        have hlnil : l = nil := eq_nil_of_isNil hc5
        subst hlnil
        rw [fixDelete_id ⟨hOkr, hbr, hbstr⟩]
        simp only [getHeight_nil] at hh hb1 hb2
        refine ⟨⟨hOkr, hbr, hbstr⟩, ?_, ?_, ?_⟩
        · simp only [getHeight_node]
          omega
        · intro e he
          have := (ForallKeys_iff_entries.mp hfr) e he
          simp only [entries_node, entries_nil, List.nil_append, List.mem_cons]
          exact ⟨Or.inr he, by omega⟩
        · intro e he hne
          simp only [entries_node, entries_nil, List.nil_append,
            List.mem_cons] at he
          rcases he with he | he
          · exact absurd (by rw [he]; simp only [Prod.fst]; omega : e.1.lo = key) hne
          · exact he
      · -- a match with two children
        cases r with
        | nil => simp at hc4
        | node rk rv rm rh rl rr =>
            obtain ⟨mk, mv, mm, mh2, mr, heq, hmem, hfa⟩ :=
              findMinimum_node rk rv rm rh rr hbstr
            rw [heq]
            simp only [getHeight_node] at hh hb1 hb2 hgr
            exact delete_twoChild hOkl hbl hbstl hOkr hbr hbstr hfl hfr
              (by simp only [getHeight_node]; omega) (by simp only [getHeight_node]; omega)
              (by simp only [getHeight_node]; omega) (by omega) hmem hfa
              (deleteAux_spec mk.lo ⟨hOkr, hbr, hbstr⟩)


/-! ## Insert and the `max` augmentation; entry-level facts -/

/-- Insert keeps every node's `max` equation valid (the inserted `hi` must
clear the `-1` null sentinel, which every `hi ≥ 0` does). -/
theorem maxOk_insertAux {key : Key} {value : V} (hhi : -1 ≤ key.hi) :
    ∀ {t : Tree V}, maxOk t → maxOk (insertAux key value t)
  | .nil, _ => by
      simp only [insertAux, maxOk_node, getMax_nil]
      exact ⟨by omega, trivial, trivial⟩
  | .node k v m h l r, hm => by
      simp only [maxOk_node] at hm
      obtain ⟨hm0, hml, hmr⟩ := hm
      simp only [insertAux]
      split_ifs
      · exact maxOk_fixInsert ⟨maxOk_insertAux hhi hml, hmr⟩
      · exact maxOk_fixInsert ⟨hml, maxOk_insertAux hhi hmr⟩
      · exact ⟨hm0, hml, hmr⟩

/-- Every entry of the post-insert tree either carries the inserted key or
already had its key stored. -/
theorem insertAux_mem_keys {key : Key} {value : V} :
    ∀ {t : Tree V}, ∀ e ∈ entries (insertAux key value t),
      e.1 = key ∨ ∃ w, (e.1, w) ∈ entries t
  | .nil, e, he => by
      simp only [insertAux, entries_node, entries_nil, List.nil_append,
        List.mem_singleton] at he
      subst he
      exact Or.inl rfl
  | .node k v m h l r, e, he => by
      simp only [insertAux] at he
      split_ifs at he
      · rw [entries_fixInsert] at he
        simp only [entries_node, List.mem_append, List.mem_cons] at he
        rcases he with he | he | he
        · rcases insertAux_mem_keys e he with hk | ⟨w, hw⟩
          · exact Or.inl hk
          · exact Or.inr ⟨w, by
              simp only [entries_node, List.mem_append, List.mem_cons]
              exact Or.inl hw⟩
        · exact Or.inr ⟨v, by
            rw [he]
            simp only [entries_node, List.mem_append, List.mem_cons, Prod.fst]
            tauto⟩
        · exact Or.inr ⟨e.2, by
            simp only [entries_node, List.mem_append, List.mem_cons]
            exact Or.inr (Or.inr (by rwa [Prod.mk.eta]))⟩
      · rw [entries_fixInsert] at he
        simp only [entries_node, List.mem_append, List.mem_cons] at he
        rcases he with he | he | he
        · exact Or.inr ⟨e.2, by
            simp only [entries_node, List.mem_append, List.mem_cons]
            exact Or.inl (by rwa [Prod.mk.eta])⟩
        · exact Or.inr ⟨v, by
            rw [he]
            simp only [entries_node, List.mem_append, List.mem_cons, Prod.fst]
            tauto⟩
        · rcases insertAux_mem_keys e he with hk | ⟨w, hw⟩
          · exact Or.inl hk
          · exact Or.inr ⟨w, by
              simp only [entries_node, List.mem_append, List.mem_cons]
              exact Or.inr (Or.inr hw)⟩
      · simp only [entries_node, List.mem_append, List.mem_cons] at he
        rcases he with he | he | he
        · exact Or.inr ⟨e.2, by
            simp only [entries_node, List.mem_append, List.mem_cons]
            exact Or.inl (by rwa [Prod.mk.eta])⟩
        · exact Or.inr ⟨v, by
            rw [he]
            simp only [entries_node, List.mem_append, List.mem_cons, Prod.fst]
            tauto⟩
        · exact Or.inr ⟨e.2, by
            simp only [entries_node, List.mem_append, List.mem_cons]
            exact Or.inr (Or.inr (by rwa [Prod.mk.eta]))⟩

/-- After an insert some entry carries the inserted value under the inserted
`lo`; its `hi` is the inserted one for a fresh key, and an already-stored
one when the insert was a duplicate-`lo` update. -/
theorem insertAux_mem_ins (key : Key) (value : V) :
    ∀ {t : Tree V},
      ∃ e ∈ entries (insertAux key value t), e.2 = value ∧ e.1.lo = key.lo ∧
        (e.1 = key ∨ ∃ w, (e.1, w) ∈ entries t)
  | .nil => by
      refine ⟨(key, value), ?_, rfl, rfl, Or.inl rfl⟩
      simp [insertAux]
  | .node k v m h l r => by
      simp only [insertAux]
      split_ifs with h1 h2
      · obtain ⟨e, he, hv, hlo, hold⟩ := insertAux_mem_ins key value (t := l)
        refine ⟨e, ?_, hv, hlo, ?_⟩
        · rw [entries_fixInsert]
          simp only [entries_node, List.mem_append, List.mem_cons]
          exact Or.inl he
        · rcases hold with hk | ⟨w, hw⟩
          · exact Or.inl hk
          · exact Or.inr ⟨w, by
              simp only [entries_node, List.mem_append, List.mem_cons]
              exact Or.inl hw⟩
      · obtain ⟨e, he, hv, hlo, hold⟩ := insertAux_mem_ins key value (t := r)
        refine ⟨e, ?_, hv, hlo, ?_⟩
        · rw [entries_fixInsert]
          simp only [entries_node, List.mem_append, List.mem_cons]
          exact Or.inr (Or.inr he)
        · rcases hold with hk | ⟨w, hw⟩
          · exact Or.inl hk
          · exact Or.inr ⟨w, by
              simp only [entries_node, List.mem_append, List.mem_cons]
              exact Or.inr (Or.inr hw)⟩
      · refine ⟨(k, value), ?_, rfl, by simp only [Prod.fst]; omega, ?_⟩
        · simp only [entries_node, List.mem_append, List.mem_cons]
          tauto
        · exact Or.inr ⟨v, by
            simp only [entries_node, List.mem_append, List.mem_cons, Prod.fst]
            tauto⟩

/-! ## The invariants hold after every sequence of public calls -/

theorem getHeight_eq_realHeight : ∀ {t : Tree V}, heightOk t →
    getHeight t = realHeight t
  | .nil, _ => rfl
  | .node k v m h l r, ho => by
      simp only [heightOk_node] at ho
      simp only [getHeight_node, realHeight_node, ho.1,
        getHeight_eq_realHeight ho.2.1, getHeight_eq_realHeight ho.2.2]

theorem avl_of_good : ∀ {t : Tree V}, heightOk t → balancedS t → avl t
  | .nil, _, _ => trivial
  | .node k v m h l r, ho, hb => by
      simp only [heightOk_node] at ho
      simp only [balancedS_node] at hb
      refine ⟨?_, ?_, avl_of_good ho.2.1 hb.2.2.1, avl_of_good ho.2.2 hb.2.2.2⟩
      · rw [← getHeight_eq_realHeight ho.2.1, ← getHeight_eq_realHeight ho.2.2]
        exact hb.1
      · rw [← getHeight_eq_realHeight ho.2.1, ← getHeight_eq_realHeight ho.2.2]
        exact hb.2.1

/-! ## Find: soundness and (conditional) completeness of the pruned search -/

/-- Whatever the search returns is a stored entry whose interval passes the
overlap test `hi > stored.lo && lo < stored.hi`. -/
theorem findAux_sound {qlo qhi : Int} :
    ∀ {t : Tree V} {e : Key × V}, findAux qlo qhi t = some e →
      e ∈ entries t ∧ qhi > e.1.lo ∧ qlo < e.1.hi
  | .nil, e, he => by simp [findAux] at he
  | .node k v m h l r, e, he => by
      simp only [findAux] at he
      split_ifs at he with hov hpr
      · obtain rfl : (k, v) = e := by injection he
        refine ⟨?_, hov⟩
        simp only [entries_node, List.mem_append, List.mem_cons]
        tauto
      · obtain ⟨hm, ho⟩ := findAux_sound he
        refine ⟨?_, ho⟩
        simp only [entries_node, List.mem_append, List.mem_cons]
        tauto
      · obtain ⟨hm, ho⟩ := findAux_sound he
        refine ⟨?_, ho⟩
        simp only [entries_node, List.mem_append, List.mem_cons]
        tauto

/-- Under the `max` equations the cached `max` bounds every stored `hi`. -/
theorem hi_le_getMax : ∀ {t : Tree V}, maxOk t →
    ∀ e ∈ entries t, e.1.hi ≤ getMax t
  | .nil, _, e, he => by simp at he
  | .node k v m h l r, hm, e, he => by
      simp only [maxOk_node] at hm
      obtain ⟨hm0, hml, hmr⟩ := hm
      simp only [entries_node, List.mem_append, List.mem_cons] at he
      simp only [getMax_node]
      rcases he with he | he | he
      · have := hi_le_getMax hml e he
        omega
      · rw [he]
        simp only [Prod.fst]
        omega
      · have := hi_le_getMax hmr e he
        omega

/-- When every stored `hi` is nonnegative, a non-null subtree's cached `max`
is attained by some stored entry. -/
theorem getMax_achieved : ∀ {t : Tree V}, maxOk t →
    (∀ e ∈ entries t, 0 ≤ e.1.hi) → t ≠ nil →
    ∃ e ∈ entries t, e.1.hi = getMax t
  | .nil, _, _, hne => absurd rfl hne
  | .node k v m h l r, hm, hnn, _ => by
      simp only [maxOk_node] at hm
      obtain ⟨hm0, hml, hmr⟩ := hm
      have hk0 : 0 ≤ k.hi := hnn (k, v) (by
        simp only [entries_node, List.mem_append, List.mem_cons]; tauto)
      have hchoice : m = k.hi ∨ m = getMax l ∨ m = getMax r := by omega
      rcases hchoice with hc | hc | hc
      · refine ⟨(k, v), ?_, ?_⟩
        · simp only [entries_node, List.mem_append, List.mem_cons]; tauto
        · simp only [Prod.fst, getMax_node]; omega
      · have hlne : l ≠ nil := by
          intro hnil
          rw [hnil] at hc
          simp only [getMax_nil] at hc
          omega
        obtain ⟨e, he, heq⟩ := getMax_achieved hml
          (fun e he => hnn e (by
            simp only [entries_node, List.mem_append, List.mem_cons]; tauto))
          hlne
        refine ⟨e, ?_, ?_⟩
        · simp only [entries_node, List.mem_append, List.mem_cons]; tauto
        · simp only [getMax_node]; omega
      · have hrne : r ≠ nil := by
          intro hnil
          rw [hnil] at hc
          simp only [getMax_nil] at hc
          omega
        obtain ⟨e, he, heq⟩ := getMax_achieved hmr
          (fun e he => hnn e (by
            simp only [entries_node, List.mem_append, List.mem_cons]; tauto))
          hrne
        refine ⟨e, ?_, ?_⟩
        · simp only [entries_node, List.mem_append, List.mem_cons]; tauto
        · simp only [getMax_node]; omega

/-- Completeness of the pruned search, under the boundary condition the
pruning rule `left->max < lo` needs: no stored `hi` equals the query's
`lo`.  (Without it the search can descend into a left subtree whose `max`
equals `lo` and miss an overlap stored to the right.) -/
theorem findAux_complete {qlo qhi : Int} :
    ∀ {t : Tree V}, bst t → maxOk t →
      (∀ e ∈ entries t, 0 ≤ e.1.hi) →
      (∀ e ∈ entries t, e.1.hi ≠ qlo) →
      (∃ e ∈ entries t, qhi > e.1.lo ∧ qlo < e.1.hi) →
      ∃ e, findAux qlo qhi t = some e ∧ qhi > e.1.lo ∧ qlo < e.1.hi
  | .nil, _, _, _, _, hov => by simp at hov
  | .node k v m h l r, hb, hm, hnn, hbd, hov => by
      simp only [bst_node] at hb
      obtain ⟨hfl, hfr, hbl, hbr⟩ := hb
      simp only [maxOk_node] at hm
      obtain ⟨hm0, hml, hmr⟩ := hm
      have hmem_mid : ((k, v) : Key × V) ∈ entries (node k v m h l r) := by
        simp only [entries_node, List.mem_append, List.mem_cons]; tauto
      have hmem_l : ∀ e ∈ entries l, e ∈ entries (node k v m h l r) := by
        intro e he
        simp only [entries_node, List.mem_append, List.mem_cons]; tauto
      have hmem_r : ∀ e ∈ entries r, e ∈ entries (node k v m h l r) := by
        intro e he
        simp only [entries_node, List.mem_append, List.mem_cons]; tauto
      simp only [findAux]
      split_ifs with hov0 hpr
      · exact ⟨(k, v), rfl, hov0⟩
      · -- descend right: the left subtree is pruned (or absent)
        refine findAux_complete hbr hmr
          (fun e he => hnn e (hmem_r e he)) (fun e he => hbd e (hmem_r e he)) ?_
        obtain ⟨e0, he0, hove0⟩ := hov
        simp only [entries_node, List.mem_append, List.mem_cons] at he0
        rcases he0 with he0 | he0 | he0
        · exfalso
          rcases hpr with hpr | hpr
          · rw [eq_nil_of_isNil hpr] at he0
            simp at he0
          · have := hi_le_getMax hml e0 he0
            omega
        · exfalso
          rw [he0] at hove0
          simp only [Prod.fst] at hove0
          exact hov0 hove0
        · exact ⟨e0, he0, hove0⟩
      · -- descend left: the left child exists and its max reaches the query
        push_neg at hpr
        obtain ⟨hlnil, hmax_ge⟩ := hpr
        have hlne : l ≠ nil := by
          intro hn
          rw [hn] at hlnil
          simp at hlnil
        obtain ⟨e1, he1, he1top⟩ := getMax_achieved hml
          (fun e he => hnn e (hmem_l e he)) hlne
        have he1bd : e1.1.hi ≠ qlo := hbd e1 (hmem_l e1 he1)
        have he1hi : qlo < e1.1.hi := by omega
        refine findAux_complete hbl hml
          (fun e he => hnn e (hmem_l e he)) (fun e he => hbd e (hmem_l e he)) ?_
        by_cases he1lo : e1.1.lo < qhi
        · exact ⟨e1, he1, he1lo, he1hi⟩
        · -- the attaining entry starts at or after the query's end, so the
          -- node and the whole right subtree start even later: the given
          -- overlap must lie in the left subtree
          obtain ⟨e0, he0, hove0⟩ := hov
          have he1k : e1.1.lo < k.lo := (ForallKeys_iff_entries.mp hfl) e1 he1
          simp only [entries_node, List.mem_append, List.mem_cons] at he0
          rcases he0 with he0 | he0 | he0
          · exact ⟨e0, he0, hove0⟩
          · exfalso
            rw [he0] at hove0
            simp only [Prod.fst] at hove0
            omega
          · exfalso
            have := (ForallKeys_iff_entries.mp hfr) e0 he0
            omega


/-! ## Observers used to state the claims -/

/-- The left child subtree (null stays null). -/
def leftChild : Tree V → Tree V
  | nil => nil
  | node _ _ _ _ l _ => l

/-- The right child subtree (null stays null). -/
def rightChild : Tree V → Tree V
  | nil => nil
  | node _ _ _ _ _ r => r

/-- The node's own `max` field satisfies the `CalcMax` equation (nothing is
said about descendants). -/
def topMaxEq : Tree V → Prop
  | nil => True
  | node k _ m _ l r => m = max k.hi (max (getMax l) (getMax r))

/-- The node's own `height` field satisfies the `CalcHeight` equation. -/
def topHeightEq : Tree V → Prop
  | nil => True
  | node _ _ _ h l r => h = 1 + max (getHeight l) (getHeight r)

theorem leftRotation_ne_nil {k : Key} {v : V} {m h : Int} {l r : Tree V} :
    leftRotation (node k v m h l r) ≠ nil := by
  cases r <;> simp [leftRotation]

theorem rightRotation_ne_nil {k : Key} {v : V} {m h : Int} {l r : Tree V} :
    rightRotation (node k v m h l r) ≠ nil := by
  cases l <;> simp [rightRotation]

theorem balance_ne_nil {k : Key} {v : V} {m h : Int} {l r : Tree V} :
    balance (node k v m h l r) ≠ nil := by
  by_cases h1 : getBalance (node k v m h l r) < -1
  · by_cases h2 : getBalance r ≥ 1
    · rw [balance_rl h1 h2]
      match hx : leftRotation (node k v m h l (rightRotation r)) with
      | .nil => exact absurd hx leftRotation_ne_nil
      | .node a b c d e f => simp
    · rw [balance_rr h1 h2]
      match hx : leftRotation (node k v m h l r) with
      | .nil => exact absurd hx leftRotation_ne_nil
      | .node a b c d e f => simp
  · by_cases h3 : getBalance (node k v m h l r) > 1
    · by_cases h4 : getBalance l ≤ -1
      · rw [balance_lr h3 h4]
        match hx : rightRotation (node k v m h (leftRotation l) r) with
        | .nil => exact absurd hx rightRotation_ne_nil
        | .node a b c d e f => simp
      · rw [balance_ll h3 h4]
        match hx : rightRotation (node k v m h l r) with
        | .nil => exact absurd hx rightRotation_ne_nil
        | .node a b c d e f => simp
    · rw [balance_id (by omega) (by omega)]
      simp

theorem setTopHeight_ne_nil {t : Tree V} (ht : t ≠ nil) : setTopHeight t ≠ nil := by
  cases t with
  | nil => exact absurd rfl ht
  | node k v m h l r => simp

theorem calcMax_ne_nil {t : Tree V} (ht : t ≠ nil) : calcMax t ≠ nil := by
  cases t with
  | nil => exact absurd rfl ht
  | node k v m h l r => simp

/-- The recursive insert never leaves the slot empty. -/
theorem insertAux_ne_nil {key : Key} {value : V} :
    ∀ {t : Tree V}, insertAux key value t ≠ nil
  | .nil => by simp [insertAux]
  | .node k v m h l r => by
      simp only [insertAux]
      split_ifs
      · exact calcMax_ne_nil (setTopHeight_ne_nil balance_ne_nil)
      · exact calcMax_ne_nil (setTopHeight_ne_nil balance_ne_nil)
      · simp


@[simp] theorem leftChild_nil : leftChild (nil : Tree V) = nil := rfl

@[simp] theorem leftChild_node {k : Key} {v : V} {m h : Int} {l r : Tree V} :
    leftChild (node k v m h l r) = l := rfl

@[simp] theorem rightChild_nil : rightChild (nil : Tree V) = nil := rfl

@[simp] theorem rightChild_node {k : Key} {v : V} {m h : Int} {l r : Tree V} :
    rightChild (node k v m h l r) = r := rfl

@[simp] theorem topMaxEq_nil : topMaxEq (nil : Tree V) := trivial

@[simp] theorem topMaxEq_node {k : Key} {v : V} {m h : Int} {l r : Tree V} :
    topMaxEq (node k v m h l r) ↔ m = max k.hi (max (getMax l) (getMax r)) :=
  Iff.rfl

@[simp] theorem topHeightEq_nil : topHeightEq (nil : Tree V) := trivial

@[simp] theorem topHeightEq_node {k : Key} {v : V} {m h : Int} {l r : Tree V} :
    topHeightEq (node k v m h l r) ↔ h = 1 + max (getHeight l) (getHeight r) :=
  Iff.rfl

@[simp] theorem topHeightEq_setTopHeight : ∀ {t : Tree V}, topHeightEq (setTopHeight t)
  | .nil => trivial
  | .node k v m h l r => by simp

/-- After `Balance` resolves a right-heavy node, the node's `max` equation,
the demoted (left) child's `max` equation, and both children's height
equations hold in the result. -/
theorem balance_left_refresh {k : Key} {v : V} {m h : Int} {l r : Tree V}
    (h1 : getBalance (node k v m h l r) < -1) (hrne : r ≠ nil) :
    topMaxEq (balance (node k v m h l r)) ∧
    topMaxEq (leftChild (balance (node k v m h l r))) ∧
    topHeightEq (leftChild (balance (node k v m h l r))) ∧
    topHeightEq (rightChild (balance (node k v m h l r))) := by
  by_cases h2 : getBalance r ≥ 1
  · rw [balance_rl h1 h2]
    match hx : rightRotation r with
    | .nil =>
        cases r with
        | nil => exact absurd rfl hrne
        | node a b c d e f => exact absurd hx rightRotation_ne_nil
    | .node rk2 rv2 rm2 rh2 rl2 rr2 =>
        refine ⟨?_, ?_, ?_, ?_⟩ <;>
          simp [leftRotation, getMax_setTopHeight]
  · rw [balance_rr h1 h2]
    cases r with
    | nil => exact absurd rfl hrne
    | node rk2 rv2 rm2 rh2 rl2 rr2 =>
        refine ⟨?_, ?_, ?_, ?_⟩ <;>
          simp [leftRotation, getMax_setTopHeight]

/-- Mirror image of `balance_left_refresh` for a left-heavy node. -/
theorem balance_right_refresh {k : Key} {v : V} {m h : Int} {l r : Tree V}
    (h1 : getBalance (node k v m h l r) > 1) (hlne : l ≠ nil) :
    topMaxEq (balance (node k v m h l r)) ∧
    topMaxEq (rightChild (balance (node k v m h l r))) ∧
    topHeightEq (leftChild (balance (node k v m h l r))) ∧
    topHeightEq (rightChild (balance (node k v m h l r))) := by
  by_cases h2 : getBalance l ≤ -1
  · rw [balance_lr h1 h2]
    match hx : leftRotation l with
    | .nil =>
        cases l with
        | nil => exact absurd rfl hlne
        | node a b c d e f => exact absurd hx leftRotation_ne_nil
    | .node lk2 lv2 lm2 lh2 ll2 lr2 =>
        refine ⟨?_, ?_, ?_, ?_⟩ <;>
          simp [rightRotation, getMax_setTopHeight]
  · rw [balance_ll h1 h2]
    cases l with
    | nil => exact absurd rfl hlne
    | node lk2 lv2 lm2 lh2 ll2 lr2 =>
        refine ⟨?_, ?_, ?_, ?_⟩ <;>
          simp [rightRotation, getMax_setTopHeight]


end Tree

variable {V : Type}


/-- One call of the public mutating interface. -/
inductive Op (V : Type) where
  | insert (lo hi : Int) (v : V)
  | delete (lo : Int)

/-- Apply one public call to the tree held in `m_pRoot`. -/
def applyOp (t : Tree V) : Op V → Tree V
  | .insert lo hi v => (Tree.insertOp lo hi v t).2
  | .delete lo => Tree.deleteOp lo t

/-- The tree after a sequence of public calls, starting from the default
constructed (empty) map. -/
def run (ops : List (Op V)) : Tree V := ops.foldl applyOp Tree.nil

theorem applyOp_good {t : Tree V} (hg : t.good) : ∀ op : Op V, (applyOp t op).good
  | .insert lo hi v => by
      show ((if hi < lo then (none, t)
        else (some (Tree.insertAux ⟨lo, hi⟩ v t), Tree.insertAux ⟨lo, hi⟩ v t)).2).good
      split_ifs
      · exact hg
      · exact (Tree.insertAux_good hg).1
  | .delete lo => (Tree.deleteAux_spec lo hg).1

theorem run_good (ops : List (Op V)) : (run ops).good := by
  have hstep : ∀ (l : List (Op V)) (t : Tree V), t.good →
      (l.foldl applyOp t).good := by
    intro l
    induction l with
    | nil => exact fun t h => h
    | cons op rest ih => exact fun t h => ih _ (applyOp_good h op)
  exact hstep ops Tree.nil ⟨trivial, trivial, trivial⟩


/-! ## The claims -/

/-- C2, evaluated at the failing input: after inserting `[10,11) ↦ 0`,
`[5,100) ↦ 1`, `[15,16) ↦ 2` the cached `max` equations all hold, but
deleting `5` — whose unwind never calls `CalcMax` — leaves the root caching
`max = 100` although every remaining stored `hi` is at most `16`: the
augmentation invariant is violated at an ancestor of the deleted node. -/
theorem C2_delete_leaves_stale_max :
    Tree.maxOk (run [Op.insert 10 11 (0 : Nat), Op.insert 5 100 1,
        Op.insert 15 16 2]) ∧
    ¬ Tree.maxOk (run [Op.insert 10 11 (0 : Nat), Op.insert 5 100 1,
        Op.insert 15 16 2, Op.delete 5]) ∧
    Tree.getMax (run [Op.insert 10 11 (0 : Nat), Op.insert 5 100 1,
        Op.insert 15 16 2, Op.delete 5]) = 100 ∧
    (∀ e ∈ Tree.entries (run [Op.insert 10 11 (0 : Nat), Op.insert 5 100 1,
        Op.insert 15 16 2, Op.delete 5]), e.1.hi ≤ 16) := by
  decide

/-- C4, evaluated at the failing input: the tree stores `[1,3)` at the root
with `[5,8)` as its only (right) child; `find(4, 6)` fails the overlap test
at the root and must take a recursive branch — the branches whose `return`
the source omits.  Under the propagating semantics the caller relies on,
the answer is the `[5,8)` entry. -/
theorem C4_find_requires_result_propagation :
    run [Op.insert 1 3 (0 : Nat), Op.insert 5 8 1] =
      Tree.node ⟨1, 3⟩ 0 8 1 Tree.nil
        (Tree.node ⟨5, 8⟩ 1 8 0 Tree.nil Tree.nil) ∧
    ¬ Tree.overlap 4 6 ⟨1, 3⟩ ∧
    Tree.findOp 4 6 (run [Op.insert 1 3 (0 : Nat), Op.insert 5 8 1]) =
      some (⟨5, 8⟩, 1) := by
  decide

/-- C5 counterexample: inserting `lo=5, hi=10, v=A` (here `A = 0`) and then
`lo=5, hi=20, v=B` (here `B = 1`) leaves exactly one node, but no stored
entry has `hi = 20`: the duplicate-`lo` insert overwrites only the value
and keeps the stored interval `[5, 10)`. -/
theorem C5_counterexample_hi_kept :
    Tree.entries ((Tree.insertOp 5 20 (1 : Nat)
        ((Tree.insertOp 5 10 (0 : Nat) Tree.nil).2)).2) = [(⟨5, 10⟩, 1)] ∧
    ¬ ∃ e ∈ Tree.entries ((Tree.insertOp 5 20 (1 : Nat)
        ((Tree.insertOp 5 10 (0 : Nat) Tree.nil).2)).2), e.1.hi = 20 := by
  decide

/-- C5 as amended: inserting `lo=5, hi=10, v=A` then `lo=5, hi=20, v=B`
leaves exactly one node with `lo = 5`, holding value `B` and the original
`hi = 10` (the stored interval is retained on a duplicate-`lo` insert). -/
theorem C5_update_keeps_interval :
    Tree.entries ((Tree.insertOp 5 20 (1 : Nat)
        ((Tree.insertOp 5 10 (0 : Nat) Tree.nil).2)).2) = [(⟨5, 10⟩, 1)] := by
  decide

/-- C6, evaluated at the failing input: deleting `10` from the tree built
by inserting `10, 5, 20, 15` hits the two-child case; the right subtree's
root `20` has the left child `15`, so `FindMinimum` recurses — the
recursion whose `return` the source omits — and the returned node is copied
by the double-owning `Node` copy constructor.  Under the value-level
semantics the delete yields exactly the intended remaining map. -/
theorem C6_delete_two_child_trace :
    run [Op.insert 10 11 (0 : Nat), Op.insert 5 6 1, Op.insert 20 21 2,
        Op.insert 15 16 3] =
      Tree.node ⟨10, 11⟩ 0 21 2 (Tree.node ⟨5, 6⟩ 1 6 0 Tree.nil Tree.nil)
        (Tree.node ⟨20, 21⟩ 2 21 1
          (Tree.node ⟨15, 16⟩ 3 16 0 Tree.nil Tree.nil) Tree.nil) ∧
    Tree.findMinimum (Tree.rightChild (run [Op.insert 10 11 (0 : Nat),
        Op.insert 5 6 1, Op.insert 20 21 2, Op.insert 15 16 3])) =
      Tree.node ⟨15, 16⟩ 3 16 0 Tree.nil Tree.nil ∧
    Tree.entries (Tree.deleteOp 10 (run [Op.insert 10 11 (0 : Nat),
        Op.insert 5 6 1, Op.insert 20 21 2, Op.insert 15 16 3])) =
      [(⟨5, 6⟩, 1), (⟨15, 16⟩, 3), (⟨20, 21⟩, 2)] := by
  decide

/-- C7: the public insert reports failure (a null pointer) exactly when
`hi < lo`, and in that case performs no mutation at all: the tree — and
with it every invariant over it — is exactly as before. -/
theorem C7_insert_rejects_invalid_interval (t : Tree V) (lo hi : Int) (v : V) :
    ((Tree.insertOp lo hi v t).1 = none ↔ hi < lo) ∧
    (hi < lo → (Tree.insertOp lo hi v t).2 = t) := by
  unfold Tree.insertOp
  split_ifs with hc
  · exact ⟨⟨fun _ => hc, fun _ => rfl⟩, fun _ => rfl⟩
  · refine ⟨⟨fun hx => ?_, fun hlt => absurd hlt hc⟩, fun hlt => absurd hlt hc⟩
    simp at hx

/-- C7 witness: the rejection observed on `insert(lo=10, hi=5, v=X)`
against the empty map. -/
theorem C7_insert_rejects_invalid_interval_witness :
    (((Tree.insertOp 10 5 (0 : Nat) Tree.nil).1 = none ↔ (5 : Int) < 10) ∧
      ((5 : Int) < 10 → (Tree.insertOp 10 5 (0 : Nat) Tree.nil).2 = Tree.nil)) :=
  C7_insert_rejects_invalid_interval Tree.nil 10 5 0

/-- C8: on a node whose children carry correct height fields, `Balance`
selects exactly the four rotation cases of the claim's table — a right
rotation of the right child followed by a left rotation of the node when
the balance factor is below `-1` and the right child's is at least `1`,
only a left rotation otherwise; mirrored for a factor above `1`; and no
rotation at all for a factor in `[-1, 1]` — and whenever a rotation fires,
the node's `max` equation, the demoted child's `max` equation on the side
whose membership changed, and the height equations of both children hold
in the result before control returns to `Balance`'s caller. -/
theorem C8_balance_case_analysis (k : Key) (v : V) (m h : Int) (l r : Tree V)
    (hOkl : Tree.heightOk l) (hOkr : Tree.heightOk r) :
    (Tree.getBalance (Tree.node k v m h l r) < -1 → Tree.getBalance r ≥ 1 →
      Tree.balance (Tree.node k v m h l r) =
        Tree.refreshHeights (Tree.leftRotation
          (Tree.node k v m h l (Tree.rightRotation r)))) ∧
    (Tree.getBalance (Tree.node k v m h l r) < -1 → ¬ Tree.getBalance r ≥ 1 →
      Tree.balance (Tree.node k v m h l r) =
        Tree.refreshHeights (Tree.leftRotation (Tree.node k v m h l r))) ∧
    (Tree.getBalance (Tree.node k v m h l r) > 1 → Tree.getBalance l ≤ -1 →
      Tree.balance (Tree.node k v m h l r) =
        Tree.refreshHeights (Tree.rightRotation
          (Tree.node k v m h (Tree.leftRotation l) r))) ∧
    (Tree.getBalance (Tree.node k v m h l r) > 1 → ¬ Tree.getBalance l ≤ -1 →
      Tree.balance (Tree.node k v m h l r) =
        Tree.refreshHeights (Tree.rightRotation (Tree.node k v m h l r))) ∧
    (-1 ≤ Tree.getBalance (Tree.node k v m h l r) →
      Tree.getBalance (Tree.node k v m h l r) ≤ 1 →
      Tree.balance (Tree.node k v m h l r) = Tree.node k v m h l r) ∧
    (¬ (-1 ≤ Tree.getBalance (Tree.node k v m h l r) ∧
        Tree.getBalance (Tree.node k v m h l r) ≤ 1) →
      Tree.topMaxEq (Tree.balance (Tree.node k v m h l r)) ∧
      Tree.topHeightEq (Tree.leftChild (Tree.balance (Tree.node k v m h l r))) ∧
      Tree.topHeightEq (Tree.rightChild (Tree.balance (Tree.node k v m h l r))) ∧
      (Tree.getBalance (Tree.node k v m h l r) < -1 →
        Tree.topMaxEq (Tree.leftChild (Tree.balance (Tree.node k v m h l r)))) ∧
      (Tree.getBalance (Tree.node k v m h l r) > 1 →
        Tree.topMaxEq (Tree.rightChild (Tree.balance (Tree.node k v m h l r))))) := by
  refine ⟨fun h1 h2 => Tree.balance_rl h1 h2, fun h1 h2 => Tree.balance_rr h1 h2,
    fun h1 h2 => Tree.balance_lr h1 h2, fun h1 h2 => Tree.balance_ll h1 h2,
    fun h1 h2 => Tree.balance_id h1 h2, ?_⟩
  intro hnb
  have hgl := Tree.getHeight_ge_neg_one hOkl
  have hgr := Tree.getHeight_ge_neg_one hOkr
  by_cases h1 : Tree.getBalance (Tree.node k v m h l r) < -1
  · have h1n := h1
    simp only [Tree.getBalance_node] at h1n
    have hrne : r ≠ Tree.nil := by
      intro hnil
      rw [hnil] at h1n
      simp only [Tree.getHeight_nil] at h1n
      omega
    obtain ⟨ha, hb2, hc, hd⟩ := Tree.balance_left_refresh h1 hrne
    exact ⟨ha, hc, hd, fun _ => hb2,
      fun hq => absurd hq (by simp only [Tree.getBalance_node] at h1 ⊢; omega)⟩
  · have h3 : Tree.getBalance (Tree.node k v m h l r) > 1 := by
      simp only [Tree.getBalance_node] at h1 hnb ⊢
      omega
    have h3n := h3
    simp only [Tree.getBalance_node] at h3n
    have hlne : l ≠ Tree.nil := by
      intro hnil
      rw [hnil] at h3n
      simp only [Tree.getHeight_nil] at h3n
      omega
    obtain ⟨ha, hb2, hc, hd⟩ := Tree.balance_right_refresh h3 hlne
    exact ⟨ha, hc, hd,
      fun hq => absurd hq (by simp only [Tree.getBalance_node] at h3 ⊢; omega),
      fun _ => hb2⟩

/-- C8 witness: the case analysis instantiated on a concrete right-heavy
node (an RR shape) with correct child heights. -/
theorem C8_balance_case_analysis_witness :
    (Tree.getBalance (Tree.node ⟨5, 6⟩ (0 : Nat) 6 9 Tree.nil
        (Tree.node ⟨10, 11⟩ 1 13 1 Tree.nil
          (Tree.node ⟨12, 13⟩ 2 13 0 Tree.nil Tree.nil))) < -1 →
      Tree.getBalance (Tree.node ⟨10, 11⟩ (1 : Nat) 13 1 Tree.nil
        (Tree.node ⟨12, 13⟩ 2 13 0 Tree.nil Tree.nil)) ≥ 1 →
      Tree.balance (Tree.node ⟨5, 6⟩ (0 : Nat) 6 9 Tree.nil
        (Tree.node ⟨10, 11⟩ 1 13 1 Tree.nil
          (Tree.node ⟨12, 13⟩ 2 13 0 Tree.nil Tree.nil))) =
        Tree.refreshHeights (Tree.leftRotation
          (Tree.node ⟨5, 6⟩ 0 6 9 Tree.nil
            (Tree.rightRotation (Tree.node ⟨10, 11⟩ 1 13 1 Tree.nil
              (Tree.node ⟨12, 13⟩ 2 13 0 Tree.nil Tree.nil)))))) ∧
    (Tree.getBalance (Tree.node ⟨5, 6⟩ (0 : Nat) 6 9 Tree.nil
        (Tree.node ⟨10, 11⟩ 1 13 1 Tree.nil
          (Tree.node ⟨12, 13⟩ 2 13 0 Tree.nil Tree.nil))) < -1 →
      ¬ Tree.getBalance (Tree.node ⟨10, 11⟩ (1 : Nat) 13 1 Tree.nil
        (Tree.node ⟨12, 13⟩ 2 13 0 Tree.nil Tree.nil)) ≥ 1 →
      Tree.balance (Tree.node ⟨5, 6⟩ (0 : Nat) 6 9 Tree.nil
        (Tree.node ⟨10, 11⟩ 1 13 1 Tree.nil
          (Tree.node ⟨12, 13⟩ 2 13 0 Tree.nil Tree.nil))) =
        Tree.refreshHeights (Tree.leftRotation
          (Tree.node ⟨5, 6⟩ 0 6 9 Tree.nil
            (Tree.node ⟨10, 11⟩ 1 13 1 Tree.nil
              (Tree.node ⟨12, 13⟩ 2 13 0 Tree.nil Tree.nil))))) ∧
    (Tree.getBalance (Tree.node ⟨5, 6⟩ (0 : Nat) 6 9 Tree.nil
        (Tree.node ⟨10, 11⟩ 1 13 1 Tree.nil
          (Tree.node ⟨12, 13⟩ 2 13 0 Tree.nil Tree.nil))) > 1 →
      Tree.getBalance (Tree.nil (V := Nat)) ≤ -1 →
      Tree.balance (Tree.node ⟨5, 6⟩ (0 : Nat) 6 9 Tree.nil
        (Tree.node ⟨10, 11⟩ 1 13 1 Tree.nil
          (Tree.node ⟨12, 13⟩ 2 13 0 Tree.nil Tree.nil))) =
        Tree.refreshHeights (Tree.rightRotation
          (Tree.node ⟨5, 6⟩ 0 6 9 (Tree.leftRotation Tree.nil)
            (Tree.node ⟨10, 11⟩ 1 13 1 Tree.nil
              (Tree.node ⟨12, 13⟩ 2 13 0 Tree.nil Tree.nil))))) ∧
    (Tree.getBalance (Tree.node ⟨5, 6⟩ (0 : Nat) 6 9 Tree.nil
        (Tree.node ⟨10, 11⟩ 1 13 1 Tree.nil
          (Tree.node ⟨12, 13⟩ 2 13 0 Tree.nil Tree.nil))) > 1 →
      ¬ Tree.getBalance (Tree.nil (V := Nat)) ≤ -1 →
      Tree.balance (Tree.node ⟨5, 6⟩ (0 : Nat) 6 9 Tree.nil
        (Tree.node ⟨10, 11⟩ 1 13 1 Tree.nil
          (Tree.node ⟨12, 13⟩ 2 13 0 Tree.nil Tree.nil))) =
        Tree.refreshHeights (Tree.rightRotation
          (Tree.node ⟨5, 6⟩ 0 6 9 Tree.nil
            (Tree.node ⟨10, 11⟩ 1 13 1 Tree.nil
              (Tree.node ⟨12, 13⟩ 2 13 0 Tree.nil Tree.nil))))) ∧
    (-1 ≤ Tree.getBalance (Tree.node ⟨5, 6⟩ (0 : Nat) 6 9 Tree.nil
        (Tree.node ⟨10, 11⟩ 1 13 1 Tree.nil
          (Tree.node ⟨12, 13⟩ 2 13 0 Tree.nil Tree.nil))) →
      Tree.getBalance (Tree.node ⟨5, 6⟩ (0 : Nat) 6 9 Tree.nil
        (Tree.node ⟨10, 11⟩ 1 13 1 Tree.nil
          (Tree.node ⟨12, 13⟩ 2 13 0 Tree.nil Tree.nil))) ≤ 1 →
      Tree.balance (Tree.node ⟨5, 6⟩ (0 : Nat) 6 9 Tree.nil
        (Tree.node ⟨10, 11⟩ 1 13 1 Tree.nil
          (Tree.node ⟨12, 13⟩ 2 13 0 Tree.nil Tree.nil))) =
        Tree.node ⟨5, 6⟩ 0 6 9 Tree.nil
          (Tree.node ⟨10, 11⟩ 1 13 1 Tree.nil
            (Tree.node ⟨12, 13⟩ 2 13 0 Tree.nil Tree.nil))) ∧
    (¬ (-1 ≤ Tree.getBalance (Tree.node ⟨5, 6⟩ (0 : Nat) 6 9 Tree.nil
          (Tree.node ⟨10, 11⟩ 1 13 1 Tree.nil
            (Tree.node ⟨12, 13⟩ 2 13 0 Tree.nil Tree.nil))) ∧
        Tree.getBalance (Tree.node ⟨5, 6⟩ (0 : Nat) 6 9 Tree.nil
          (Tree.node ⟨10, 11⟩ 1 13 1 Tree.nil
            (Tree.node ⟨12, 13⟩ 2 13 0 Tree.nil Tree.nil))) ≤ 1) →
      Tree.topMaxEq (Tree.balance (Tree.node ⟨5, 6⟩ (0 : Nat) 6 9 Tree.nil
        (Tree.node ⟨10, 11⟩ 1 13 1 Tree.nil
          (Tree.node ⟨12, 13⟩ 2 13 0 Tree.nil Tree.nil)))) ∧
      Tree.topHeightEq (Tree.leftChild (Tree.balance
        (Tree.node ⟨5, 6⟩ (0 : Nat) 6 9 Tree.nil
          (Tree.node ⟨10, 11⟩ 1 13 1 Tree.nil
            (Tree.node ⟨12, 13⟩ 2 13 0 Tree.nil Tree.nil))))) ∧
      Tree.topHeightEq (Tree.rightChild (Tree.balance
        (Tree.node ⟨5, 6⟩ (0 : Nat) 6 9 Tree.nil
          (Tree.node ⟨10, 11⟩ 1 13 1 Tree.nil
            (Tree.node ⟨12, 13⟩ 2 13 0 Tree.nil Tree.nil))))) ∧
      (Tree.getBalance (Tree.node ⟨5, 6⟩ (0 : Nat) 6 9 Tree.nil
          (Tree.node ⟨10, 11⟩ 1 13 1 Tree.nil
            (Tree.node ⟨12, 13⟩ 2 13 0 Tree.nil Tree.nil))) < -1 →
        Tree.topMaxEq (Tree.leftChild (Tree.balance
          (Tree.node ⟨5, 6⟩ (0 : Nat) 6 9 Tree.nil
            (Tree.node ⟨10, 11⟩ 1 13 1 Tree.nil
              (Tree.node ⟨12, 13⟩ 2 13 0 Tree.nil Tree.nil)))))) ∧
      (Tree.getBalance (Tree.node ⟨5, 6⟩ (0 : Nat) 6 9 Tree.nil
          (Tree.node ⟨10, 11⟩ 1 13 1 Tree.nil
            (Tree.node ⟨12, 13⟩ 2 13 0 Tree.nil Tree.nil))) > 1 →
        Tree.topMaxEq (Tree.rightChild (Tree.balance
          (Tree.node ⟨5, 6⟩ (0 : Nat) 6 9 Tree.nil
            (Tree.node ⟨10, 11⟩ 1 13 1 Tree.nil
              (Tree.node ⟨12, 13⟩ 2 13 0 Tree.nil Tree.nil))))))) :=
  C8_balance_case_analysis ⟨5, 6⟩ (0 : Nat) 6 9 Tree.nil
    (Tree.node ⟨10, 11⟩ 1 13 1 Tree.nil
      (Tree.node ⟨12, 13⟩ 2 13 0 Tree.nil Tree.nil))
    (by decide) (by decide)

/-- C9, evaluated at the failing input: the tree built by inserting
`10, 5, 3, 7, 20, 15, 25, 17` has the key-10 root with two children, and
the in-order successor of the root (`FindMinimum` of the right subtree) is
the key-15 node, whose right child is the key-17 node.  The two-child case
of delete copies that successor node — the `Node` copy constructor wraps
the successor's raw child pointers in fresh owning pointers — and after the
delete the key-17 node is still reachable from the root, so its destruction
by the copy's destructor in the source destroys a reachable node. -/
theorem C9_copied_successor_child_remains_reachable :
    Tree.findMinimum (Tree.rightChild (run [Op.insert 10 11 (0 : Nat),
        Op.insert 5 6 1, Op.insert 3 4 2, Op.insert 7 8 3, Op.insert 20 21 4,
        Op.insert 15 16 5, Op.insert 25 26 6, Op.insert 17 18 7])) =
      Tree.node ⟨15, 16⟩ 5 18 1 Tree.nil
        (Tree.node ⟨17, 18⟩ 7 18 0 Tree.nil Tree.nil) ∧
    Tree.rightChild (Tree.findMinimum (Tree.rightChild
        (run [Op.insert 10 11 (0 : Nat), Op.insert 5 6 1, Op.insert 3 4 2,
          Op.insert 7 8 3, Op.insert 20 21 4, Op.insert 15 16 5,
          Op.insert 25 26 6, Op.insert 17 18 7]))) ≠ Tree.nil ∧
    (⟨17, 18⟩, 7) ∈ Tree.entries (Tree.deleteOp 10
        (run [Op.insert 10 11 (0 : Nat), Op.insert 5 6 1, Op.insert 3 4 2,
          Op.insert 7 8 3, Op.insert 20 21 4, Op.insert 15 16 5,
          Op.insert 25 26 6, Op.insert 17 18 7])) := by
  decide

/-- C10: the public insert returns null exactly when `hi < lo`; on success
the returned pointer is the root slot of the post-insert tree (which is
never null).  The recursive insert returns its own slot reference on every
path, so the top-level call returns `m_pRoot` — in general not the node
holding the inserted `lo`: inserting `5` under an existing root `10` returns
the key-10 root. -/
theorem C10_insert_returns_root_pointer (t : Tree V) (lo hi : Int) (v : V) :
    ((Tree.insertOp lo hi v t).1 = none ↔ hi < lo) ∧
    (¬ hi < lo →
      (Tree.insertOp lo hi v t).1 = some ((Tree.insertOp lo hi v t).2) ∧
      (Tree.insertOp lo hi v t).2 = Tree.insertAux ⟨lo, hi⟩ v t ∧
      Tree.insertAux ⟨lo, hi⟩ v t ≠ Tree.nil) ∧
    (Tree.insertOp 5 6 v (Tree.node ⟨10, 11⟩ v 11 0 Tree.nil Tree.nil)).1 =
      some (Tree.node ⟨10, 11⟩ v 11 1
        (Tree.node ⟨5, 6⟩ v 6 0 Tree.nil Tree.nil) Tree.nil) := by
  refine ⟨?_, ?_, ?_⟩
  · unfold Tree.insertOp
    split_ifs with hc
    · exact ⟨fun _ => hc, fun _ => rfl⟩
    · exact ⟨fun hx => by simp at hx, fun hlt => absurd hlt hc⟩
  · intro hge
    unfold Tree.insertOp
    rw [if_neg hge]
    exact ⟨rfl, rfl, Tree.insertAux_ne_nil⟩
  · rfl

/-- C10 witness: the statement instantiated on the empty tree and the
interval `[1, 2)`. -/
theorem C10_insert_returns_root_pointer_witness :
    (((Tree.insertOp 1 2 (0 : Nat) Tree.nil).1 = none ↔ (2 : Int) < 1) ∧
      (¬ (2 : Int) < 1 →
        (Tree.insertOp 1 2 (0 : Nat) Tree.nil).1 =
          some ((Tree.insertOp 1 2 (0 : Nat) Tree.nil).2) ∧
        (Tree.insertOp 1 2 (0 : Nat) Tree.nil).2 =
          Tree.insertAux ⟨1, 2⟩ (0 : Nat) Tree.nil ∧
        Tree.insertAux ⟨1, 2⟩ (0 : Nat) Tree.nil ≠ Tree.nil) ∧
      (Tree.insertOp 5 6 (0 : Nat)
          (Tree.node ⟨10, 11⟩ (0 : Nat) 11 0 Tree.nil Tree.nil)).1 =
        some (Tree.node ⟨10, 11⟩ 0 11 1
          (Tree.node ⟨5, 6⟩ 0 6 0 Tree.nil Tree.nil) Tree.nil)) :=
  C10_insert_returns_root_pointer Tree.nil 1 2 0


end IntervalMap
